import Mathlib

/-!
Verification of the Nexus-AI workflow execution engine
(`backend/src/engine/{planner,budget,executor,backtrack,events}.py`).

The Python code is shallowly embedded: dictionaries become association
lists with Python `dict` semantics (assignment to an existing key keeps
its position, otherwise appends), machine integers become `Nat`/`Int`,
Python `float` money amounts become `ℚ`, and the nondeterministic LLM
calls of the executor become an explicit oracle parameter.
-/

namespace Nexus

/-! ## Lexicographic order on node ids

Python compares strings by code points; `list.sort()` sorts ascending.
`clistLe` is that order on the underlying character lists. -/

/-- Lexicographic code-point comparison of character lists, as Python
string comparison does. -/
def clistLe : List Char → List Char → Bool
  | [], _ => true
  | _ :: _, [] => false
  | a :: as, b :: bs =>
    if a.toNat < b.toNat then true
    else if b.toNat < a.toNat then false
    else clistLe as bs

/-- Python string order `a <= b` on node ids. -/
def idLeP (a b : String) : Prop := clistLe a.data b.data = true

instance : DecidableRel idLeP := fun a b => by
  unfold idLeP; infer_instance

theorem clistLe_total (a b : List Char) : clistLe a b = true ∨ clistLe b a = true := by
  induction a generalizing b with
  | nil => left; rfl
  | cons x xs ih =>
    cases b with
    | nil => right; rfl
    | cons y ys =>
      rcases Nat.lt_trichotomy x.toNat y.toNat with h | h | h
      · left; simp [clistLe, h]
      · have h1 : ¬ x.toNat < y.toNat := by omega
        have h2 : ¬ y.toNat < x.toNat := by omega
        rcases ih ys with h3 | h3
        · left; simp [clistLe, h1, h2, h3]
        · right; simp [clistLe, h1, h2, h3]
      · right; simp [clistLe, h]

theorem clistLe_trans {a b c : List Char} (hab : clistLe a b = true)
    (hbc : clistLe b c = true) : clistLe a c = true := by
  induction a generalizing b c with
  | nil => rfl
  | cons x xs ih =>
    cases b with
    | nil => simp [clistLe] at hab
    | cons y ys =>
      cases c with
      | nil => simp [clistLe] at hbc
      | cons z zs =>
        by_cases hxy : x.toNat < y.toNat
        · by_cases hyz : y.toNat < z.toNat
          · have : x.toNat < z.toNat := Nat.lt_trans hxy hyz
            simp [clistLe, this]
          · by_cases hzy : z.toNat < y.toNat
            · simp [clistLe, hyz, hzy] at hbc
            · have : y.toNat = z.toNat := by omega
              have : x.toNat < z.toNat := by omega
              simp [clistLe, this]
        · by_cases hyx : y.toNat < x.toNat
          · simp [clistLe, hxy, hyx] at hab
          · have hxyeq : x.toNat = y.toNat := by omega
            by_cases hyz : y.toNat < z.toNat
            · have : x.toNat < z.toNat := by omega
              simp [clistLe, this]
            · by_cases hzy : z.toNat < y.toNat
              · simp [clistLe, hyz, hzy] at hbc
              · have h1 : ¬ x.toNat < z.toNat := by omega
                have h2 : ¬ z.toNat < x.toNat := by omega
                simp [clistLe, hxy, hyx] at hab
                simp [clistLe, hyz, hzy] at hbc
                simp [clistLe, h1, h2]
                exact ih hab hbc

instance : IsTotal String idLeP := ⟨fun a b => clistLe_total a.data b.data⟩

instance : IsTrans String idLeP := ⟨fun _ _ _ hab hbc => clistLe_trans hab hbc⟩

/-! ## Python dictionaries as association lists -/

/-- A Python `dict` with keys of type `κ`: an association list in key
insertion order. -/
abbrev PyDict (κ α : Type) : Type := List (κ × α)

variable {κ α β : Type} [DecidableEq κ]

/-- Dictionary lookup `m[k]` / `m.get(k)`. -/
def dget? : PyDict κ α → κ → Option α
  | [], _ => none
  | (k, v) :: rest, q => if k = q then some v else dget? rest q

/-- Dictionary lookup with default, `m.get(k, d)`. -/
def dgetD (m : PyDict κ α) (k : κ) (d : α) : α := (dget? m k).getD d

/-- Dictionary assignment `m[k] = v`: updates an existing key in place,
otherwise appends, as Python insertion order does. -/
def dset : PyDict κ α → κ → α → PyDict κ α
  | [], q, v => [(q, v)]
  | (k, w) :: rest, q, v =>
    if k = q then (k, v) :: rest else (k, w) :: dset rest q v

/-- The keys of the dictionary, in insertion order. -/
def dkeys (m : PyDict κ α) : List κ := m.map Prod.fst

theorem dget?_dset_self (m : PyDict κ α) (k : κ) (v : α) :
    dget? (dset m k v) k = some v := by
  induction m with
  | nil => simp [dset, dget?]
  | cons p rest ih =>
    obtain ⟨k', w⟩ := p
    by_cases h : k' = k <;> simp [dset, dget?, h, ih]

theorem dget?_dset_ne (m : PyDict κ α) {k q : κ} (v : α) (h : q ≠ k) :
    dget? (dset m k v) q = dget? m q := by
  induction m with
  | nil => simp [dset, dget?, Ne.symm h]
  | cons p rest ih =>
    obtain ⟨k', w⟩ := p
    by_cases h1 : k' = k
    · subst h1; simp [dset, dget?, Ne.symm h, h]
    · simp only [dset, if_neg h1]
      by_cases h2 : k' = q <;> simp [dget?, h2, ih]

theorem mem_dkeys_iff_dget? (m : PyDict κ α) (k : κ) :
    k ∈ dkeys m ↔ (dget? m k).isSome := by
  induction m with
  | nil => simp [dkeys, dget?]
  | cons p rest ih =>
    obtain ⟨k', w⟩ := p
    by_cases h : k' = k
    · subst h; simp [dkeys, dget?]
    · simp only [dkeys, List.map_cons, List.mem_cons]
      rw [show (dkeys rest = List.map Prod.fst rest) from rfl] at ih
      simp [dget?, h, ih, Ne.symm h]

theorem dkeys_dset_mem (m : PyDict κ α) {k : κ} (v : α) (h : k ∈ dkeys m) :
    dkeys (dset m k v) = dkeys m := by
  induction m with
  | nil => simp [dkeys] at h
  | cons p rest ih =>
    obtain ⟨k', w⟩ := p
    by_cases h1 : k' = k
    · simp [dset, dkeys, h1]
    · have h2 : k ∈ dkeys rest := by
        simp [dkeys] at h ⊢
        rcases h with h | h
        · exact absurd h.symm h1
        · exact h
      have h3 := ih h2
      simp only [dset, if_neg h1, dkeys, List.map_cons] at h3 ⊢
      rw [h3]

theorem dkeys_dset_not_mem (m : PyDict κ α) {k : κ} (v : α) (h : k ∉ dkeys m) :
    dkeys (dset m k v) = dkeys m ++ [k] := by
  induction m with
  | nil => simp [dset, dkeys]
  | cons p rest ih =>
    obtain ⟨k', w⟩ := p
    have h1 : k' ≠ k := by
      intro he; exact h (by simp [dkeys, he])
    have h2 : k ∉ dkeys rest := by
      intro he; exact h (by simp [dkeys]; right; simpa [dkeys] using he)
    have h3 := ih h2
    simp only [dset, if_neg h1, dkeys, List.map_cons] at h3 ⊢
    rw [h3, List.cons_append]

theorem dget?_eq_some_of_mem_of_nodup {m : PyDict κ α} {k : κ} {v : α}
    (hmem : (k, v) ∈ m) (hnd : (dkeys m).Nodup) : dget? m k = some v := by
  induction m with
  | nil => simp at hmem
  | cons p rest ih =>
    obtain ⟨k', w⟩ := p
    simp only [dkeys, List.map_cons, List.nodup_cons] at hnd
    rcases List.mem_cons.mp hmem with h | h
    · rw [Prod.ext_iff] at h
      obtain ⟨h1, h2⟩ := h
      simp only at h1 h2
      subst h1; subst h2
      simp [dget?]
    · have hk : k' ≠ k := by
        intro he; subst he
        exact hnd.1 (by
          have : (k', v).1 ∈ List.map Prod.fst rest := List.mem_map_of_mem Prod.fst h
          simpa using this)
      simp [dget?, hk, ih h hnd.2]

theorem mem_of_dget?_eq_some {m : PyDict κ α} {k : κ} {v : α}
    (h : dget? m k = some v) : (k, v) ∈ m := by
  induction m with
  | nil => simp [dget?] at h
  | cons p rest ih =>
    obtain ⟨k', w⟩ := p
    by_cases h1 : k' = k
    · subst h1; simp [dget?] at h; simp [h]
    · simp [dget?, h1] at h; exact List.mem_cons_of_mem _ (ih h)

theorem dget?_map (m : PyDict κ α) (f : κ → α → β) (k : κ) :
    dget? (m.map (fun p => (p.1, f p.1 p.2)) : PyDict κ β) k
      = (dget? m k).map (f k) := by
  induction m with
  | nil => simp [dget?]
  | cons p rest ih =>
    obtain ⟨k', w⟩ := p
    by_cases h : k' = k
    · subst h; simp [dget?]
    · simp [dget?, h, ih]

omit [DecidableEq κ] in
theorem dkeys_map (m : PyDict κ α) (f : κ → α → β) :
    dkeys (m.map (fun p => (p.1, f p.1 p.2)) : PyDict κ β) = dkeys m := by
  induction m with
  | nil => rfl
  | cons p rest ih =>
    simp only [dkeys, List.map_cons] at ih ⊢
    rw [ih]

theorem dget?_eq_none_of_not_mem {m : PyDict κ α} {k : κ} (h : k ∉ dkeys m) :
    dget? m k = none := by
  cases hg : dget? m k with
  | none => rfl
  | some v =>
    exact absurd ((mem_dkeys_iff_dget? m k).mpr (by simp [hg])) h

theorem dkeys_dset_nodup (m : PyDict κ α) (k : κ) (v : α)
    (h : (dkeys m).Nodup) : (dkeys (dset m k v)).Nodup := by
  by_cases hm : k ∈ dkeys m
  · rwa [dkeys_dset_mem m v hm]
  · rw [dkeys_dset_not_mem m v hm, List.nodup_append]
    exact ⟨h, by simp, by intro a ha hb; simp at hb; subst hb; exact hm ha⟩

/-! ## Graph data model

A submitted workflow graph (`graph_data`): nodes carry a string `id` and a
`data` configuration dict; edges carry `source`, `target` and an optional
`data.condition` string.  The configuration keys the engine reads are
modelled as optional fields; `cfg.get(key, default)` becomes
`Option.getD`. -/

/-- Configuration object of one node (the node's `data` dict restricted to
the keys the engine reads). -/
structure NodeCfg where
  name : Option String := none
  provider : Option String := none
  model : Option String := none
  system_prompt : Option String := none
  max_tokens : Option Nat := none
  max_retries : Option Nat := none
  fallback_agent_id : Option String := none
deriving Repr, DecidableEq, Inhabited

/-- One entry of `graph_data["nodes"]`. -/
structure GNode where
  id : String
  data : NodeCfg
deriving Repr, DecidableEq

/-- One entry of `graph_data["edges"]`; `condition` is
`edge.get("data", \x7b\x7d).get("condition")`. -/
structure GEdge where
  source : String
  target : String
  condition : Option String := none
deriving Repr, DecidableEq

/-- The raw `graph_data` mapping. -/
structure GraphData where
  nodes : List GNode
  edges : List GEdge
deriving Repr, DecidableEq

/-- The list of node ids in node order. -/
def nodeIds (g : GraphData) : List String := g.nodes.map GNode.id

/-! ## Planner (engine/planner.py) -/

/-- Model of planner.py `DAGNode`. -/
structure DAGNode where
  node_id : String
  config : NodeCfg
  deps : List String := []
  dependents : List String := []
deriving Repr, DecidableEq

/-- The planner's adjacency dictionary. -/
abbrev DAG := PyDict String DAGNode

/-- The `deps` list of `dag[n]`, `[]` when `n` is not a key. -/
def nodeDeps (dag : DAG) (n : String) : List String :=
  ((dget? dag n).map DAGNode.deps).getD []

/-- The `dependents` list of `dag[n]`, `[]` when `n` is not a key. -/
def nodeDependents (dag : DAG) (n : String) : List String :=
  ((dget? dag n).map DAGNode.dependents).getD []

/-- The `config` of `dag[n]` (`\x7b\x7d` when `n` is not a key, which the
planner never observes). -/
def nodeConfig (dag : DAG) (n : String) : NodeCfg :=
  ((dget? dag n).map DAGNode.config).getD {}

/-- Model of `parse_graph` (planner.py 62-82): node pass, then the edge
pass appending to `deps` of the target and `dependents` of the source
whenever both endpoints are present. -/
def addEdge (m : DAG) (e : GEdge) : DAG :=
  if (dget? m e.source).isSome && (dget? m e.target).isSome then
    let m1 : DAG :=
      match dget? m e.target with
      | some nd => dset m e.target { nd with deps := nd.deps ++ [e.source] }
      | none => m
    match dget? m1 e.source with
    | some nd => dset m1 e.source { nd with dependents := nd.dependents ++ [e.target] }
    | none => m1
  else m

/-- The node pass of `parse_graph`. -/
def parseNodes (g : GraphData) : DAG :=
  g.nodes.foldl (fun m n => dset m n.id ⟨n.id, n.data, [], []⟩) []

/-- Model of `parse_graph` (planner.py 62-82). -/
def parse_graph (g : GraphData) : DAG :=
  g.edges.foldl addEdge (parseNodes g)

/-- Initial in-degree dict of Kahn's algorithm (planner.py 87 / 106). -/
def initInDegree (dag : DAG) : PyDict String Int :=
  dag.map (fun p => (p.1, (p.2.deps.length : Int)))

/-- Initial zero-in-degree queue of Kahn's algorithm (planner.py 88 / 107). -/
def initQueue (dag : DAG) : List String :=
  (dag.filter (fun p => p.2.deps.length == 0)).map Prod.fst

/-- The inner `for dep_id in dag[nid].dependents` loop shared by
`detect_cycles` and `topological_sort`: decrement each dependent's
in-degree and enqueue those that reach zero. -/
def decDependents : List String → PyDict String Int → List String →
    PyDict String Int × List String
  | [], ind, queue => (ind, queue)
  | d :: ds, ind, queue =>
    let v := dgetD ind d 0 - 1
    decDependents ds (dset ind d v) (if v = 0 then queue ++ [d] else queue)

/-- The Kahn elimination loop.  `sortQ = true` adds the `queue.sort()`
tie-break of `topological_sort` (planner.py 111); `detect_cycles` pops the
plain FIFO queue.  `fuel` bounds the iteration count; every key enters the
queue at most once, so `dag.length` fuel is never exhausted before the
queue empties (proved below), making this the exact model of the
`while queue` loop.  Returns the final in-degree dict, the remaining
queue and the list of popped node ids (whose length is `visited`). -/
def kahnRun (dag : DAG) (sortQ : Bool) :
    Nat → PyDict String Int → List String → List String →
    PyDict String Int × List String × List String
  | 0, ind, queue, out => (ind, queue, out)
  | fuel + 1, ind, queue, out =>
    match (if sortQ then List.insertionSort idLeP queue else queue) with
    | [] => (ind, [], out)
    | nid :: rest =>
      let st := decDependents (nodeDependents dag nid) ind rest
      kahnRun dag sortQ fuel st.1 st.2 (out ++ [nid])

/-- Model of `detect_cycles` (planner.py 85-101): `visited` is the number
of popped nodes; on failure the positive-in-degree keys are the witness. -/
def detect_cycles (dag : DAG) : Except (List String) Unit :=
  let res := kahnRun dag false dag.length (initInDegree dag) (initQueue dag) []
  if res.2.2.length = dag.length then Except.ok ()
  else Except.error ((res.1.filter (fun p => decide (0 < p.2))).map Prod.fst)

/-- Model of `topological_sort` (planner.py 104-119). -/
def topological_sort (dag : DAG) : List String :=
  (kahnRun dag true dag.length (initInDegree dag) (initQueue dag) []).2.2

/-- One agent entry of the plan. -/
structure AgentPlanEntry where
  node_id : String
  config : NodeCfg
deriving Repr, DecidableEq

/-- One parallel group of the plan. -/
structure ParallelGroup where
  group : Nat
  agents : List AgentPlanEntry
deriving Repr, DecidableEq

/-- The planner's output. -/
structure ExecutionPlan where
  groups : List ParallelGroup
  total_agents : Nat
  max_parallelism : Nat
  estimated_rounds : Nat
deriving Repr, DecidableEq

/-- Planner errors (`EmptyWorkflowError`, `CircularDependencyError`). -/
inductive PlanError
  | emptyWorkflow
  | circularDependency (cycle_nodes : List String)
deriving Repr, DecidableEq

/-- The group value of one node given the groups assigned so far
(planner.py 130-134): 0 without deps, else one more than the maximum of
its deps' groups.  The `dgetD _ _ 0` default models the dict lookup,
which in Python never misses because the loop runs over a topological
order; `foldl max 0` models Python `max` over the nonempty list of
nonnegative group indices. -/
def groupVal (dag : DAG) (m : PyDict String Nat) (nid : String) : Nat :=
  if nodeDeps dag nid = [] then 0
  else ((nodeDeps dag nid).map (fun d => dgetD m d 0)).foldl max 0 + 1

/-- One iteration of the `group_of` assignment loop. -/
def assignGroup (dag : DAG) (m : PyDict String Nat) (nid : String) :
    PyDict String Nat :=
  dset m nid (groupVal dag m nid)

/-- The `group_of` assignment loop of `extract_parallel_groups`
(planner.py 126-134). -/
def computeGroups (dag : DAG) (sorted_nodes : List String) : PyDict String Nat :=
  sorted_nodes.foldl (assignGroup dag) []

/-- Model of `extract_parallel_groups` (planner.py 122-146): bucket the
sorted nodes by group index and emit buckets by ascending index. -/
def extract_parallel_groups (dag : DAG) (sorted_nodes : List String) :
    List ParallelGroup :=
  let group_of := computeGroups dag sorted_nodes
  let gkeys := List.insertionSort (· ≤ ·)
    ((sorted_nodes.map (fun n => dgetD group_of n 0)).dedup)
  gkeys.map (fun gk =>
    { group := gk,
      agents := sorted_nodes.filterMap (fun n =>
        if dgetD group_of n 0 = gk then some ⟨n, nodeConfig dag n⟩ else none) })

/-! ### Graph-level view of the parsed DAG

`gdeps`/`gdents` describe `deps` and `dependents` of the parsed DAG
directly in terms of the submitted edges (dangling edges are dropped, as
`parse_graph` does). -/

/-- The edges whose two endpoints are nodes of the graph. -/
def liveEdges (g : GraphData) : List GEdge :=
  g.edges.filter (fun e =>
    decide (e.source ∈ nodeIds g) && decide (e.target ∈ nodeIds g))

/-- The in-graph dependency multiset of node `b`: sources of live edges
into `b`, in edge order. -/
def gdeps (g : GraphData) (b : String) : List String :=
  ((liveEdges g).filter (fun e => e.target == b)).map GEdge.source

/-- The in-graph dependents of node `a`: targets of live edges out of
`a`, in edge order. -/
def gdents (g : GraphData) (a : String) : List String :=
  ((liveEdges g).filter (fun e => e.source == a)).map GEdge.target

/-- The edge relation of the graph restricted to present endpoints:
`EdgeRel g u v` holds when some live edge runs from `u` to `v`. -/
def EdgeRel (g : GraphData) (u v : String) : Prop := u ∈ gdeps g v

/-- A node participates in a cycle when a nonempty path of live edges
leads from it back to itself. -/
def OnCycle (g : GraphData) (n : String) : Prop :=
  Relation.TransGen (EdgeRel g) n n

/-- The graph has an edge-induced cycle. -/
def HasCycle (g : GraphData) : Prop := ∃ n, OnCycle g n

/-- Model of `create_execution_plan` (planner.py 149-167). -/
def create_execution_plan (g : GraphData) : Except PlanError ExecutionPlan :=
  if g.nodes.isEmpty then Except.error PlanError.emptyWorkflow
  else
    let dag := parse_graph g
    match detect_cycles dag with
    | Except.error cyc => Except.error (PlanError.circularDependency cyc)
    | Except.ok _ =>
      let groups := extract_parallel_groups dag (topological_sort dag)
      Except.ok
        { groups := groups
          total_agents := (groups.map (fun gr => gr.agents.length)).sum
          max_parallelism :=
            if groups.isEmpty then 0
            else (groups.map (fun gr => gr.agents.length)).foldl max 0
          estimated_rounds := groups.length }

/-- The group index of node `n` in a group list: the index of the first
group whose agents contain `n` (0 when absent). -/
def groupsIndexOf (gs : List ParallelGroup) (n : String) : Nat :=
  ((gs.find? (fun gr => gr.agents.any (fun a => a.node_id == n))).map
    ParallelGroup.group).getD 0

/-- The group index of node `n` in a plan. -/
def planGroupOf (p : ExecutionPlan) (n : String) : Nat :=
  groupsIndexOf p.groups n

/-! ## Budget (engine/budget.py, adapters/base.py)

Floats are modelled as exact rationals: `0.6` is `6/10`, `int(x)` on a
non-negative value is the floor, and `round(x, 6)` is exact decimal
rounding to six places (`round6`).  `pricing/models.json` is loaded when
the adapter module loads and is not part of the engine source, so the loaded
`_pricing_data` table is a parameter. -/

/-- One `{"input_per_1k": …, "output_per_1k": …}` pricing entry. -/
structure ModelPricing where
  input_per_1k : ℚ
  output_per_1k : ℚ
deriving Repr, DecidableEq

/-- The loaded `_pricing_data`: provider → model → pricing. -/
abbrev PricingData := PyDict String (PyDict String ModelPricing)

/-- Model of `get_model_pricing` (adapters/base.py 40-44): the pricing of
`(provider, model)`, zero prices when the pair is unknown. -/
def get_model_pricing (pd : PricingData) (provider model : String) :
    ModelPricing :=
  dgetD (dgetD pd provider []) model ⟨0, 0⟩

/-- `round(q, 6)`: exact half-up rounding to six decimal places. -/
def round6 (q : ℚ) : ℚ := ((round (q * 1000000) : ℤ) : ℚ) / 1000000

/-- Model of `_estimate_agent_tokens` (budget.py 59-77): returns
`(prompt_tokens, completion_tokens)`.  `int(dep_max * 0.6)` on the
non-negative `dep_max` is `dep_max * 6 / 10` in integer division. -/
def _estimate_agent_tokens (config : NodeCfg) (dep_configs : List NodeCfg) :
    Nat × Nat :=
  let system_prompt := config.system_prompt.getD ""
  let system_tokens := max 1 (system_prompt.length / 4)
  let input_tokens :=
    if dep_configs.isEmpty then 200
    else (dep_configs.map (fun dep_cfg =>
        (dep_cfg.max_tokens.getD 1000) * 6 / 10)).sum
      + 50 * dep_configs.length
  (system_tokens + input_tokens, config.max_tokens.getD 1000)

/-- budget.py 87-89: the `configs` dict, `node["id"] → node["data"]`. -/
def budgetConfigs (g : GraphData) : PyDict String NodeCfg :=
  g.nodes.foldl (fun m node => dset m node.id node.data) []

/-- budget.py 91-94: the `deps_of` dict built with `setdefault`/`append`
over the raw edges. -/
def depsOf (g : GraphData) : PyDict String (List String) :=
  g.edges.foldl
    (fun m e => dset m e.target (dgetD m e.target [] ++ [e.source])) []

/-- budget.py 96-100: some edge carries a truthy condition. -/
def has_conditions (g : GraphData) : Bool :=
  g.edges.any (fun e => e.condition.any (fun c => !(c == "")))

/-- budget.py 32-39 `AgentEstimate`. -/
structure AgentEstimate where
  node_id : String
  model : String
  provider : String
  estimated_prompt_tokens : Nat
  estimated_completion_tokens : Nat
  estimated_cost : ℚ
deriving Repr, DecidableEq

/-- budget.py 42-46 `CostEstimate`. -/
structure CostEstimate where
  total : ℚ
  agents : List AgentEstimate
  confidence : String
deriving Repr, DecidableEq

/-- The planned agents in execution order (budget.py 105-106 iterates
groups in order and agents within each group). -/
def planAgents (plan : ExecutionPlan) : List AgentPlanEntry :=
  plan.groups.flatMap (fun gr => gr.agents)

/-- One iteration of the per-agent loop of `estimate_workflow_cost`
(budget.py 106-128). -/
def agentEstimate (pd : PricingData) (g : GraphData) (a : AgentPlanEntry) :
    AgentEstimate :=
  let cfg := dgetD (budgetConfigs g) a.node_id a.config
  let provider := cfg.provider.getD "openai"
  let model := cfg.model.getD "gpt-4o"
  let dep_ids := dgetD (depsOf g) a.node_id []
  let dep_cfgs := dep_ids.map (fun d => dgetD (budgetConfigs g) d {})
  let tok := _estimate_agent_tokens cfg dep_cfgs
  let pricing := get_model_pricing pd provider model
  let prompt_cost := ((tok.1 : ℚ) / 1000) * pricing.input_per_1k
  let completion_cost := ((tok.2 : ℚ) / 1000) * pricing.output_per_1k
  { node_id := a.node_id
    model := model
    provider := provider
    estimated_prompt_tokens := tok.1
    estimated_completion_tokens := tok.2
    estimated_cost := round6 (prompt_cost + completion_cost) }

/-- Model of `estimate_workflow_cost` (budget.py 80-146). -/
def estimate_workflow_cost (pd : PricingData) (plan : ExecutionPlan)
    (g : GraphData) : CostEstimate :=
  let agent_estimates := (planAgents plan).map (agentEstimate pd g)
  let total := round6 ((agent_estimates.map AgentEstimate.estimated_cost).sum)
  let max_tokens_values := (planAgents plan).map (fun a =>
    (dgetD (budgetConfigs g) a.node_id a.config).max_tokens.getD 1000)
  let large_max := max_tokens_values.any (fun t => decide (t > 4000))
  let confidence :=
    if has_conditions g || large_max then "low"
    else if plan.total_agents ≤ 3 && !large_max then "high"
    else "medium"
  { total := total, agents := agent_estimates, confidence := confidence }

/-! Spec-side cost formulas, written from the claim text for comparison
with the code model: per-dependency input tokens are the exact
`dep.max_tokens × 0.6` (no `int` truncation) and costs are the plain
`prompt/1000 × input_price + completion/1000 × output_price` with no
rounding; the estimate total is the plain sum. -/

/-- Spec-side `system_tokens = max(1, len(system_prompt)/4)`. -/
def specSystemTokens (config : NodeCfg) : Nat :=
  max 1 ((config.system_prompt.getD "").length / 4)

/-- Spec-side input tokens: `Σ(dep.max_tokens × 0.6) + 50 × |deps|` when
there are dependencies, else `200`, as an exact rational. -/
def specInputTokensQ (dep_configs : List NodeCfg) : ℚ :=
  if dep_configs.isEmpty then 200
  else (dep_configs.map (fun d =>
      ((d.max_tokens.getD 1000 : ℚ) * (6/10)))).sum
    + 50 * dep_configs.length

/-- Spec-side unrounded per-agent cost, following the claim verbatim. -/
def specAgentCost (pd : PricingData) (g : GraphData) (a : AgentPlanEntry) :
    ℚ :=
  let cfg := dgetD (budgetConfigs g) a.node_id a.config
  let provider := cfg.provider.getD "openai"
  let model := cfg.model.getD "gpt-4o"
  let dep_ids := dgetD (depsOf g) a.node_id []
  let dep_cfgs := dep_ids.map (fun d => dgetD (budgetConfigs g) d {})
  let pricing := get_model_pricing pd provider model
  (((specSystemTokens cfg : ℚ) + specInputTokensQ dep_cfgs) / 1000)
      * pricing.input_per_1k
    + ((cfg.max_tokens.getD 1000 : ℚ) / 1000) * pricing.output_per_1k

/-- Spec-side total: the plain sum of the per-agent costs. -/
def specTotal (pd : PricingData) (plan : ExecutionPlan) (g : GraphData) :
    ℚ :=
  ((planAgents plan).map (specAgentCost pd g)).sum

/-- The claim's input-token formula amended by the `int` truncation the
code applies to each `dep_max * 0.6`. -/
def specInputTokensAmended (dep_configs : List NodeCfg) : Nat :=
  if dep_configs.isEmpty then 200
  else (dep_configs.map (fun d => (d.max_tokens.getD 1000) * 6 / 10)).sum
    + 50 * dep_configs.length

/-- The claim amended by what budget.py actually computes: integer
truncation of each `dep_max * 0.6` and six-decimal rounding of each
per-agent cost. -/
def specAgentCostAmended (pd : PricingData) (g : GraphData)
    (a : AgentPlanEntry) : ℚ :=
  let cfg := dgetD (budgetConfigs g) a.node_id a.config
  let provider := cfg.provider.getD "openai"
  let model := cfg.model.getD "gpt-4o"
  let dep_ids := dgetD (depsOf g) a.node_id []
  let dep_cfgs := dep_ids.map (fun d => dgetD (budgetConfigs g) d {})
  let pricing := get_model_pricing pd provider model
  round6 ((((specSystemTokens cfg + specInputTokensAmended dep_cfgs : Nat) : ℚ)
        / 1000) * pricing.input_per_1k
    + ((cfg.max_tokens.getD 1000 : ℚ) / 1000) * pricing.output_per_1k)

/-! ## Budget enforcer (budget.py 199-233) -/

/-- Model of `BudgetEnforcer.__init__` state. -/
structure BudgetEnforcer where
  max_tokens : Option Int := none
  max_cost : Option ℚ := none
  used_tokens : Int := 0
  used_cost : ℚ := 0
  warned : Bool := false
deriving Repr, DecidableEq

namespace BudgetEnforcer

/-- budget.py 211-213 `has_budget`. -/
def has_budget (b : BudgetEnforcer) : Bool :=
  b.max_tokens.isSome || b.max_cost.isSome

/-- budget.py 215-217 `record`. -/
def record (b : BudgetEnforcer) (tokens : Int) (cost : ℚ) : BudgetEnforcer :=
  { b with used_tokens := b.used_tokens + tokens
           used_cost := b.used_cost + cost }

/-- budget.py 219-233 `check`: the returned string and the (possibly
`_warned`-mutated) new state. -/
def check (b : BudgetEnforcer) : String × BudgetEnforcer :=
  if b.max_cost.any (fun mc => decide (mc ≤ b.used_cost))
      || b.max_tokens.any (fun mt => decide (mt ≤ b.used_tokens)) then
    ("exceeded", b)
  else if !b.warned
      && (b.max_cost.any (fun mc => decide (mc * (8/10) ≤ b.used_cost))
        || b.max_tokens.any (fun mt =>
            decide ((mt : ℚ) * (8/10) ≤ (b.used_tokens : ℚ)))) then
    ("warning", { b with warned := true })
  else
    ("ok", b)

end BudgetEnforcer

/-- One step of a client interaction with a `BudgetEnforcer`. -/
inductive BudgetOp where
  | record (tokens : Int) (cost : ℚ)
  | check
deriving Repr

/-- Run a sequence of operations, collecting the `check` results. -/
def runOps (b : BudgetEnforcer) : List BudgetOp → BudgetEnforcer × List String
  | [] => (b, [])
  | BudgetOp.record t c :: rest => runOps (b.record t c) rest
  | BudgetOp.check :: rest =>
    let r := b.check
    let res := runOps r.2 rest
    (res.1, r.1 :: res.2)

/-- Some configured cap is reached or passed. -/
def capReached (b : BudgetEnforcer) : Prop :=
  (∃ mc, b.max_cost = some mc ∧ mc ≤ b.used_cost) ∨
  (∃ mt, b.max_tokens = some mt ∧ mt ≤ b.used_tokens)

/-- Usage is at or past 0.8 of some configured cap. -/
def warnReached (b : BudgetEnforcer) : Prop :=
  (∃ mc, b.max_cost = some mc ∧ mc * (8/10) ≤ b.used_cost) ∨
  (∃ mt, b.max_tokens = some mt ∧ (mt : ℚ) * (8/10) ≤ (b.used_tokens : ℚ))

/-- Every `record` in the sequence carries non-negative tokens and cost. -/
def opsNonneg (ops : List BudgetOp) : Prop :=
  ∀ op ∈ ops, match op with
    | BudgetOp.record t c => 0 ≤ t ∧ 0 ≤ c
    | BudgetOp.check => True

/-! ### Concrete budget inputs -/

/-- A one-node graph. -/
def gBud : GraphData := { nodes := [⟨"a", {}⟩], edges := [] }

/-- The plan of `gBud`. -/
def pBud : ExecutionPlan :=
  { groups := [⟨0, [⟨"a", {}⟩]⟩]
    total_agents := 1
    max_parallelism := 1
    estimated_rounds := 1 }

/-- A pricing table with a tiny input price for `openai/gpt-4o`. -/
def pdBud : PricingData := [("openai", [("gpt-4o", ⟨1/10000, 0⟩)])]

/-- The single planned agent of `pBud`. -/
def aBud : AgentPlanEntry := ⟨"a", {}⟩

/-- An enforcer with only a token cap. -/
def bWit : BudgetEnforcer := { max_tokens := some 100 }

/-- Record 100 tokens, then check. -/
def opsWit : List BudgetOp := [BudgetOp.record 100 0, BudgetOp.check]

/-! ## Executor (engine/executor.py, engine/backtrack.py)

The executor is async Python acting on a database session.  The model
makes the nondeterminism explicit with an `Oracle` giving the outcome of
every LLM call (one per agent attempt, one per fallback), and threads the
mutable state (`AgentExecution` rows, `completed_outputs`,
`skipped_nodes`, `order_counter`, the workflow totals) through explicit
folds.  `asyncio.gather` keeps result order, so a group is one pass that
creates skip records and tasks followed by one pass over the task results.
Rows are modelled by their final field values; row fields no claim reads
(prompt text, tokens, cost, latency, timestamps) are omitted, except that
`completed_at` is kept as a flag.  The adapter lookup (executor.py 123,
229) is assumed to succeed; LLM call failures come from the oracle. -/

/-- The observable part of one successful `LLMResponse`. -/
structure LLMResp where
  text : String
  tokens_prompt : Nat := 0
  tokens_completion : Nat := 0
  cost : ℚ := 0
  latency_ms : Nat := 0
deriving Repr, DecidableEq

/-- Outcome of every LLM call of a run: `callPrimary nid attempt` is the
primary call of node `nid` at the given retry attempt (backtrack.py 43),
`callFallback nid` the single un-retried fallback call launched for
failed node `nid` (executor.py 230-232). -/
structure Oracle where
  callPrimary : String → Nat → Except String LLMResp
  callFallback : String → Except String LLMResp

/-- One `AgentExecution` row in its final state. -/
structure AgentRun where
  agent_node_id : String
  agent_name : String
  status : String
  provider : String
  model_used : String
  parallel_group : Nat
  execution_order : Nat
  is_fallback : Bool := false
  fallback_for : Option String := none
  retries : Nat := 0
  error_message : Option String := none
  output_text : Option String := none
  input_system_prompt : Option String := none
  completed_at : Bool := false
deriving Repr, DecidableEq

/-- The dict returned by `_execute_agent_with_recovery` /
`_execute_fallback`; absent keys are modelled by the defaults the caller
reads (`res.get("tokens_prompt", 0)` etc., executor.py 387-392). -/
structure TaskResult where
  node_id : String
  status : String
  text : Option String := none
  agent_name : Option String := none
  tokens_prompt : Nat := 0
  tokens_completion : Nat := 0
  cost : ℚ := 0
  error : Option String := none
  is_fallback : Bool := false
deriving Repr, DecidableEq

/-- Python `str.lower()` (over the ASCII range the engine uses). -/
def pyLower (s : String) : String := ⟨s.data.map Char.toLower⟩

/-- Model of `_evaluate_condition` (executor.py 66-73); `in` is substring
containment. -/
def _evaluate_condition (condition : Option String) (output_text : String) :
    Bool :=
  match condition with
  | none => true
  | some c =>
    if c == "" || pyLower c == "default" then true
    else if output_text == c then true
    else if decide (c.data <:+: output_text.data) then true
    else false

/-- Model of `RetryHandler.execute` (backtrack.py 34-54): `attempt` is
the index of the next attempt, the middle argument the number of attempts
left, the last the latest error string (initially `""`). -/
def retryGo (call : Nat → Except String LLMResp) :
    Nat → Nat → String → Except (String × Nat) (LLMResp × Nat)
  | attempt, 0, last => Except.error (last, attempt)
  | attempt, rem + 1, _ =>
    match call attempt with
    | Except.ok r => Except.ok (r, attempt + 1)
    | Except.error e => retryGo call (attempt + 1) rem e

/-- `RetryHandler(RetryConfig(max_retries)).execute(...)`: up to
`max_retries + 1` attempts; on success the response and the attempt
count, on exhaustion the last error and the attempt count. -/
def retryExecute (call : Nat → Except String LLMResp) (max_retries : Nat) :
    Except (String × Nat) (LLMResp × Nat) :=
  retryGo call 0 (max_retries + 1) ""

/-- `FallbackHandler.should_fallback` (backtrack.py 67-70). -/
def should_fallback (cfg : NodeCfg) : Bool :=
  match cfg.fallback_agent_id with
  | some fid => !(fid == "")
  | none => false

/-- Model of `_execute_fallback` (executor.py 188-265): the rows it adds
and the dict it returns. -/
def _execute_fallback (oracle : Oracle)
    (fallback_node_id original_node_id : String) (fallback_config : NodeCfg)
    (parallel_group execution_order : Nat) :
    List AgentRun × TaskResult :=
  let provider := fallback_config.provider.getD "openai"
  let model := fallback_config.model.getD "gpt-4o"
  let system_prompt := fallback_config.system_prompt.getD ""
  let name := fallback_config.name.getD fallback_node_id
  match oracle.callFallback original_node_id with
  | Except.ok resp =>
    ([{ agent_node_id := fallback_node_id
        agent_name := name
        status := "completed"
        provider := provider
        model_used := model
        parallel_group := parallel_group
        execution_order := execution_order
        is_fallback := true
        fallback_for := some original_node_id
        output_text := some resp.text
        input_system_prompt := some system_prompt
        completed_at := true }],
     { node_id := original_node_id
       status := "completed"
       text := some resp.text
       agent_name := some name
       tokens_prompt := resp.tokens_prompt
       tokens_completion := resp.tokens_completion
       cost := resp.cost
       is_fallback := true })
  | Except.error exc =>
    ([{ agent_node_id := fallback_node_id
        agent_name := name
        status := "failed"
        provider := provider
        model_used := model
        parallel_group := parallel_group
        execution_order := execution_order
        is_fallback := true
        fallback_for := some original_node_id
        error_message := some exc
        input_system_prompt := some system_prompt
        completed_at := true }],
     { node_id := original_node_id
       status := "failed"
       error := some exc })

/-- Model of `_execute_agent_with_recovery` (executor.py 85-185): the
rows it adds (original first, then a possible fallback row) and the dict
it returns. -/
def _execute_agent_with_recovery (oracle : Oracle) (node_id : String)
    (node_config : NodeCfg) (parallel_group execution_order : Nat)
    (node_configs : PyDict String NodeCfg) :
    List AgentRun × TaskResult :=
  let provider := node_config.provider.getD "openai"
  let model := node_config.model.getD "gpt-4o"
  let system_prompt := node_config.system_prompt.getD ""
  let name := node_config.name.getD node_id
  let max_retries := node_config.max_retries.getD 2
  match retryExecute (oracle.callPrimary node_id) max_retries with
  | Except.ok (resp, attempts) =>
    ([{ agent_node_id := node_id
        agent_name := name
        status := "completed"
        provider := provider
        model_used := model
        parallel_group := parallel_group
        execution_order := execution_order
        retries := attempts - 1
        output_text := some resp.text
        input_system_prompt := some system_prompt
        completed_at := true }],
     { node_id := node_id
       status := "completed"
       text := some resp.text
       agent_name := some name
       tokens_prompt := resp.tokens_prompt
       tokens_completion := resp.tokens_completion
       cost := resp.cost })
  | Except.error (err, attempts) =>
    let failedRec : AgentRun :=
      { agent_node_id := node_id
        agent_name := name
        status := "failed"
        provider := provider
        model_used := model
        parallel_group := parallel_group
        execution_order := execution_order
        retries := attempts - 1
        error_message := some err
        input_system_prompt := some system_prompt
        completed_at := true }
    match node_config.fallback_agent_id with
    | some fid =>
      if fid == "" then
        ([failedRec], { node_id := node_id, status := "failed"
                        error := some err })
      else
        let fallback_cfg := dgetD node_configs fid {}
        let fb := _execute_fallback oracle fid node_id fallback_cfg
          parallel_group execution_order
        (failedRec :: fb.1, fb.2)
    | none =>
      ([failedRec], { node_id := node_id, status := "failed"
                      error := some err })

/-- executor.py 288-290: the `node_configs` dict. -/
def execNodeConfigs (g : GraphData) : PyDict String NodeCfg :=
  g.nodes.foldl (fun m node => dset m node.id node.data) []

/-- executor.py 292-298: the `edges_from` adjacency dict. -/
def edgesFrom (g : GraphData) : PyDict String (List (String × Option String)) :=
  g.edges.foldl
    (fun m e => dset m e.source (dgetD m e.source [] ++ [(e.target, e.condition)]))
    []

/-- `DependencyFailureHandler.find_downstream` (backtrack.py 77-90): the
`while stack` loop, with the stack top at the head (Python appends and
pops at the tail; pushing each iteration\x27s targets at the head pops them
in the same order).  The fuel `1 + Σ |edges_from[·]|` bounds the
iteration count: every iteration pops one entry and each target is pushed
at most once. -/
def findDownstreamGo (ef : PyDict String (List (String × Option String))) :
    Nat → List String → List String → List String
  | 0, _, skipped => skipped
  | _ + 1, [], skipped => skipped
  | fuel + 1, current :: stack, skipped =>
    let st := (dgetD ef current []).foldl
      (fun (st : List String × List String) tc =>
        if tc.1 ∈ st.2 then st else (tc.1 :: st.1, st.2 ++ [tc.1]))
      (stack, skipped)
    findDownstreamGo ef fuel st.1 st.2

/-- `find_downstream(failed_node, edges_from)`. -/
def find_downstream (ef : PyDict String (List (String × Option String)))
    (failed_node : String) : List String :=
  findDownstreamGo ef (1 + (ef.map (fun p => p.2.length)).sum + 1)
    [failed_node] []

/-- `DependencyFailureHandler.propagate` (backtrack.py 92-100):
`skipped_nodes.update(new_skips)` as an order-preserving set union. -/
def propagate (ef : PyDict String (List (String × Option String)))
    (failed_node : String) (skipped_nodes : List String) : List String :=
  skipped_nodes
    ++ (find_downstream ef failed_node).filter (fun n => decide (n ∉ skipped_nodes))

/-- An edge that forces `should_run = False` for node `nid`
(executor.py 326-333): it targets `nid`, carries a truthy condition, its
source has completed, and the condition evaluates false on the source\x27s
output text. -/
def edgeBlocks (completed : PyDict String (String × String)) (nid : String)
    (e : GEdge) : Bool :=
  e.target == nid &&
    (match e.condition, dget? completed e.source with
     | some c, some out => !(c == "") && !(_evaluate_condition (some c) out.1)
     | _, _ => false)

/-- The `should_run` flag after the edge loop (executor.py 325-333). -/
def shouldRun (edges : List GEdge) (completed : PyDict String (String × String))
    (nid : String) : Bool :=
  !(edges.any (edgeBlocks completed nid))

/-- A skipped `AgentExecution` row (executor.py 310-320 and 336-346). -/
def skipRec (ncs : PyDict String NodeCfg) (nid : String) (msg : String)
    (grp ord : Nat) : AgentRun :=
  { agent_node_id := nid
    agent_name := (dgetD ncs nid {}).name.getD nid
    status := "skipped"
    provider := (dgetD ncs nid {}).provider.getD "openai"
    model_used := (dgetD ncs nid {}).model.getD "gpt-4o"
    parallel_group := grp
    execution_order := ord
    error_message := some msg }

/-- The executor\x27s mutable state during `execute_workflow`. -/
structure ExecState where
  runs : List AgentRun := []
  completed_outputs : PyDict String (String × String) := []
  skipped_nodes : List String := []
  order_counter : Nat := 0
  total_tokens_prompt : Nat := 0
  total_tokens_completion : Nat := 0
  total_cost : ℚ := 0
  events : List String := []
deriving Repr

/-- One iteration of the per-agent loop of a group (executor.py 306-374):
either appends a skip row (dependency-skip or condition-skip) or launches
a task. -/
def processEntry (oracle : Oracle) (g : GraphData)
    (ncs : PyDict String NodeCfg) (grp : Nat)
    (acc : ExecState × List (List AgentRun × TaskResult))
    (a : AgentPlanEntry) : ExecState × List (List AgentRun × TaskResult) :=
  let st := acc.1
  let nid := a.node_id
  if nid ∈ st.skipped_nodes then
    ({ st with
        runs := st.runs
          ++ [skipRec ncs nid "skipped — dependency failed" grp st.order_counter]
        order_counter := st.order_counter + 1 }, acc.2)
  else if !(shouldRun g.edges st.completed_outputs nid) then
    ({ st with
        runs := st.runs
          ++ [skipRec ncs nid "skipped — condition not met" grp st.order_counter]
        skipped_nodes := st.skipped_nodes ++ [nid]
        order_counter := st.order_counter + 1 }, acc.2)
  else
    let node_cfg := dgetD ncs nid {}
    let tr := _execute_agent_with_recovery oracle nid node_cfg grp
      st.order_counter ncs
    ({ st with order_counter := st.order_counter + 1 }, acc.2 ++ [tr])

/-- One iteration of the result loop after `asyncio.gather`
(executor.py 379-394): the task\x27s rows land in the database; a completed
result feeds `completed_outputs` and the totals, a failed one propagates
to its downstream. -/
def processResult (ef : PyDict String (List (String × Option String)))
    (st : ExecState) (tr : List AgentRun × TaskResult) : ExecState :=
  let st := { st with runs := st.runs ++ tr.1 }
  if tr.2.status == "completed" then
    { st with
        completed_outputs := dset st.completed_outputs tr.2.node_id
          (tr.2.text.getD "", tr.2.agent_name.getD tr.2.node_id)
        total_tokens_prompt := st.total_tokens_prompt + tr.2.tokens_prompt
        total_tokens_completion :=
          st.total_tokens_completion + tr.2.tokens_completion
        total_cost := st.total_cost + tr.2.cost }
  else if tr.2.status == "failed" then
    { st with skipped_nodes := propagate ef tr.2.node_id st.skipped_nodes }
  else st

/-- One parallel group (executor.py 304-396). -/
def runGroup (oracle : Oracle) (g : GraphData) (ncs : PyDict String NodeCfg)
    (ef : PyDict String (List (String × Option String)))
    (st : ExecState) (gr : ParallelGroup) : ExecState :=
  let acc := gr.agents.foldl (processEntry oracle g ncs gr.group) (st, [])
  acc.2.foldl (processResult ef) acc.1

/-- The final `WorkflowExecution` record together with the rows and the
published events of the run. -/
structure WorkflowResult where
  status : String
  error_message : Option String
  completed_at : Bool
  runs : List AgentRun
  events : List String
  completed_outputs : PyDict String (String × String)
  skipped_nodes : List String
  total_tokens_prompt : Nat
  total_tokens_completion : Nat
  total_cost : ℚ
deriving Repr

/-- Model of `execute_workflow` (executor.py 268-417).  The `events`
trace collects what the executor publishes: executor.py never imports or
calls `engine/events.py`, so no step of the run appends to it.
Finalization (398-416): `"failed"` with `error_message = "All agents
failed"` when a failed row exists and `completed_outputs` is empty,
otherwise `"completed"` with the error message untouched (`None`). -/
def execute_workflow (oracle : Oracle) (plan : ExecutionPlan)
    (g : GraphData) : WorkflowResult :=
  let ncs := execNodeConfigs g
  let ef := edgesFrom g
  let stF := plan.groups.foldl (runGroup oracle g ncs ef) {}
  let failed_agents := stF.runs.filter (fun r => r.status == "failed")
  if !failed_agents.isEmpty && stF.completed_outputs.isEmpty then
    { status := "failed"
      error_message := some "All agents failed"
      completed_at := true
      runs := stF.runs
      events := stF.events
      completed_outputs := stF.completed_outputs
      skipped_nodes := stF.skipped_nodes
      total_tokens_prompt := stF.total_tokens_prompt
      total_tokens_completion := stF.total_tokens_completion
      total_cost := stF.total_cost }
  else
    { status := "completed"
      error_message := none
      completed_at := true
      runs := stF.runs
      events := stF.events
      completed_outputs := stF.completed_outputs
      skipped_nodes := stF.skipped_nodes
      total_tokens_prompt := stF.total_tokens_prompt
      total_tokens_completion := stF.total_tokens_completion
      total_cost := stF.total_cost }

/-- A task result is consistent with its rows: it reports `"completed"`
exactly when one of its rows completed. -/
def TaskWF (tr : List AgentRun × TaskResult) : Prop :=
  (∃ r ∈ tr.1, r.status = "completed") ↔ tr.2.status = "completed"

/-- The invariant driving finalization: a completed row exists exactly
when `completed_outputs` is non-empty. -/
def CompInv (st : ExecState) : Prop :=
  (∃ r ∈ st.runs, r.status = "completed") ↔ st.completed_outputs ≠ []

/-! ### Concrete executor inputs -/

/-- Chain `a → b → c` where the edge into `b` is conditioned on
`"approve"`. -/
def gC2 : GraphData :=
  { nodes := [⟨"a", {}⟩, ⟨"b", {}⟩, ⟨"c", {}⟩]
    edges := [⟨"a", "b", some "approve"⟩, ⟨"b", "c", none⟩] }

/-- The plan of `gC2`: three singleton groups. -/
def planC2 : ExecutionPlan :=
  { groups := [⟨0, [⟨"a", {}⟩]⟩, ⟨1, [⟨"b", {}⟩]⟩, ⟨2, [⟨"c", {}⟩]⟩]
    total_agents := 3
    max_parallelism := 1
    estimated_rounds := 3 }

/-- Every agent succeeds; `a` answers `"reject"`. -/
def oracleC2 : Oracle :=
  { callPrimary := fun nid _ =>
      if nid == "a" then Except.ok { text := "reject" }
      else Except.ok { text := "done" }
    callFallback := fun _ => Except.error "no fallback" }

/-- A node whose fallback id names no node of the graph. -/
def cfgC10 : NodeCfg := { fallback_agent_id := some "ghost" }

/-- An empty `node_configs` dict. -/
def ncsC10 : PyDict String NodeCfg := []

/-- Primary calls always fail, the fallback call succeeds. -/
def oracleC10 : Oracle :=
  { callPrimary := fun _ _ => Except.error "boom"
    callFallback := fun _ => Except.ok { text := "rescued" } }

/-! ### Concrete input graphs used to instantiate the planner -/

/-- A two-node graph with a 2-cycle `a → b → a`. -/
def gCyc : GraphData :=
  { nodes := [⟨"a", {}⟩, ⟨"b", {}⟩]
    edges := [⟨"a", "b", none⟩, ⟨"b", "a", none⟩] }

/-- The diamond `a → b → d`, `a → c → d`. -/
def gDia : GraphData :=
  { nodes := [⟨"a", {}⟩, ⟨"b", {}⟩, ⟨"c", {}⟩, ⟨"d", {}⟩]
    edges := [⟨"a", "b", none⟩, ⟨"a", "c", none⟩,
              ⟨"b", "d", none⟩, ⟨"c", "d", none⟩] }

/-- Two independent nodes submitted in the order `b`, `a`. -/
def gTie : GraphData :=
  { nodes := [⟨"b", {}⟩, ⟨"a", {}⟩]
    edges := [] }

/-! ### Structure of the parsed DAG -/

theorem mem_dkeys_dset (m : PyDict κ α) (k q : κ) (v : α) :
    q ∈ dkeys (dset m k v) ↔ q ∈ dkeys m ∨ q = k := by
  by_cases hm : k ∈ dkeys m
  · rw [dkeys_dset_mem m v hm]
    constructor
    · exact Or.inl
    · rintro (h | rfl)
      · exact h
      · exact hm
  · rw [dkeys_dset_not_mem m v hm]; simp

theorem mem_dset {m : PyDict κ α} {k : κ} {v : α} {p : κ × α}
    (h : p ∈ dset m k v) : p ∈ m ∨ p = (k, v) := by
  induction m with
  | nil => simp [dset] at h; simp [h]
  | cons q rest ih =>
    obtain ⟨k', w⟩ := q
    by_cases h1 : k' = k
    · subst h1
      simp [dset] at h
      rcases h with h | h
      · right; simp [h]
      · left; simp [h]
    · simp [dset, h1] at h
      rcases h with h | h
      · left; simp [h]
      · rcases ih h with h2 | h2
        · left; simp [h2]
        · right; exact h2

theorem mem_dkeys_parseNodes (g : GraphData) (k : String) :
    k ∈ dkeys (parseNodes g) ↔ k ∈ nodeIds g := by
  unfold parseNodes nodeIds
  suffices h : ∀ ns : List GNode, ∀ m : DAG,
      (k ∈ dkeys (ns.foldl (fun m n => dset m n.id ⟨n.id, n.data, [], []⟩) m)
        ↔ k ∈ dkeys m ∨ k ∈ ns.map GNode.id) by
    rw [h g.nodes []]; simp [dkeys]
  intro ns
  induction ns with
  | nil => intro m; simp
  | cons n rest ih =>
    intro m
    rw [List.foldl_cons, ih, mem_dkeys_dset]
    simp; tauto

theorem dkeys_parseNodes_nodup (g : GraphData) : (dkeys (parseNodes g)).Nodup := by
  unfold parseNodes
  suffices h : ∀ ns : List GNode, ∀ m : DAG, (dkeys m).Nodup →
      (dkeys (ns.foldl (fun m n => dset m n.id ⟨n.id, n.data, [], []⟩) m)).Nodup by
    exact h g.nodes [] (by simp [dkeys])
  intro ns
  induction ns with
  | nil => intro m hm; simpa using hm
  | cons n rest ih =>
    intro m hm
    exact ih _ (dkeys_dset_nodup m n.id _ hm)

theorem parseNodes_deps_nil (g : GraphData) (b : String) :
    nodeDeps (parseNodes g) b = [] ∧ nodeDependents (parseNodes g) b = [] := by
  unfold nodeDeps nodeDependents
  suffices h : ∀ nd, dget? (parseNodes g) b = some nd → nd.deps = [] ∧ nd.dependents = [] by
    cases hg : dget? (parseNodes g) b with
    | none => simp
    | some nd => simpa [hg] using h nd hg
  intro nd hget
  have hmem := mem_of_dget?_eq_some hget
  unfold parseNodes at hmem
  suffices h : ∀ ns : List GNode, ∀ m : DAG,
      (∀ p : String × DAGNode, p ∈ m → p.2.deps = [] ∧ p.2.dependents = []) →
      ∀ p : String × DAGNode,
        p ∈ ns.foldl (fun m n => dset m n.id ⟨n.id, n.data, [], []⟩) m →
        p.2.deps = [] ∧ p.2.dependents = [] by
    exact h g.nodes [] (by simp) (b, nd) hmem
  intro ns
  induction ns with
  | nil => intro m hm p hp; exact hm p hp
  | cons n rest ih =>
    intro m hm p hp
    refine ih _ ?_ p hp
    intro q hq
    rcases mem_dset hq with h1 | h1
    · exact hm q h1
    · simp [h1]

theorem addEdge_spec (m : DAG) (e : GEdge) (b : String) :
    dkeys (addEdge m e) = dkeys m ∧
    nodeDeps (addEdge m e) b = nodeDeps m b ++
      (if e.target = b ∧ e.source ∈ dkeys m ∧ e.target ∈ dkeys m
       then [e.source] else []) ∧
    nodeDependents (addEdge m e) b = nodeDependents m b ++
      (if e.source = b ∧ e.source ∈ dkeys m ∧ e.target ∈ dkeys m
       then [e.target] else []) := by
  obtain ⟨s, t, c⟩ := e
  simp only
  by_cases hc : ((dget? m s).isSome && (dget? m t).isSome) = true
  · simp only [Bool.and_eq_true, Option.isSome_iff_exists] at hc
    obtain ⟨⟨nds, hgs⟩, ⟨ndt, hgt⟩⟩ := hc
    have hks : s ∈ dkeys m := (mem_dkeys_iff_dget? ..).mpr (by simp [hgs])
    have hkt : t ∈ dkeys m := (mem_dkeys_iff_dget? ..).mpr (by simp [hgt])
    by_cases hst : s = t
    · subst hst
      have he : nds = ndt := by rw [hgs] at hgt; exact Option.some_inj.mp hgt
      subst he
      have h1 : dget? (dset m s { nds with deps := nds.deps ++ [s] }) s
          = some { nds with deps := nds.deps ++ [s] } := dget?_dset_self ..
      have hmain : addEdge m ⟨s, s, c⟩ =
          dset (dset m s { nds with deps := nds.deps ++ [s] }) s
            { nds with deps := nds.deps ++ [s],
                       dependents := nds.dependents ++ [s] } := by
        unfold addEdge
        rw [if_pos (by simp [hgs])]
        simp only [hgs, h1]
      rw [hmain]
      have hkeys : dkeys (dset (dset m s { nds with deps := nds.deps ++ [s] }) s
          { nds with deps := nds.deps ++ [s],
                     dependents := nds.dependents ++ [s] }) = dkeys m := by
        rw [dkeys_dset_mem _ _ (by rw [dkeys_dset_mem _ _ hks]; exact hks),
            dkeys_dset_mem _ _ hks]
      refine ⟨hkeys, ?_, ?_⟩
      · by_cases hb : s = b
        · subst hb
          simp [nodeDeps, dget?_dset_self, hgs, hks]
        · simp [nodeDeps, dget?_dset_ne _ _ (Ne.symm hb), hb]
      · by_cases hb : s = b
        · subst hb
          simp [nodeDependents, dget?_dset_self, hgs, hks]
        · simp [nodeDependents, dget?_dset_ne _ _ (Ne.symm hb), hb]
    · have h1 : dget? (dset m t { ndt with deps := ndt.deps ++ [s] }) s
          = some nds := by
        rw [dget?_dset_ne _ _ hst]; exact hgs
      have hmain : addEdge m ⟨s, t, c⟩ =
          dset (dset m t { ndt with deps := ndt.deps ++ [s] }) s
            { nds with dependents := nds.dependents ++ [t] } := by
        unfold addEdge
        rw [if_pos (by simp [hgs, hgt])]
        simp only [hgt, h1]
      rw [hmain]
      have hkeys : dkeys (dset (dset m t { ndt with deps := ndt.deps ++ [s] }) s
          { nds with dependents := nds.dependents ++ [t] }) = dkeys m := by
        rw [dkeys_dset_mem _ _ (by rw [dkeys_dset_mem _ _ hkt]; exact hks),
            dkeys_dset_mem _ _ hkt]
      refine ⟨hkeys, ?_, ?_⟩
      · by_cases hbt : t = b
        · subst hbt
          rw [nodeDeps, dget?_dset_ne _ _ (Ne.symm hst), dget?_dset_self]
          simp [nodeDeps, hgt, hks, hkt]
        · by_cases hbs : s = b
          · subst hbs
            rw [nodeDeps, dget?_dset_self]
            simp [nodeDeps, hgs, hbt]
          · rw [nodeDeps, dget?_dset_ne _ _ (Ne.symm hbs),
              dget?_dset_ne _ _ (Ne.symm hbt)]
            simp [nodeDeps, hbt]
      · by_cases hbs : s = b
        · subst hbs
          rw [nodeDependents, dget?_dset_self]
          simp [nodeDependents, hgs, hks, hkt]
        · by_cases hbt : t = b
          · subst hbt
            rw [nodeDependents, dget?_dset_ne _ _ (Ne.symm hbs), dget?_dset_self]
            simp [nodeDependents, hgt, hbs]
          · rw [nodeDependents, dget?_dset_ne _ _ (Ne.symm hbs),
              dget?_dset_ne _ _ (Ne.symm hbt)]
            simp [nodeDependents, hbs]
  · have hmain : addEdge m ⟨s, t, c⟩ = m := by
      unfold addEdge
      rw [if_neg hc]
    have hnot : ¬ (s ∈ dkeys m ∧ t ∈ dkeys m) := by
      intro ⟨h1, h2⟩
      rw [mem_dkeys_iff_dget?] at h1 h2
      exact hc (by simp [h1, h2])
    rw [hmain]
    refine ⟨rfl, ?_, ?_⟩
    · rw [if_neg (by tauto)]; simp
    · rw [if_neg (by tauto)]; simp

theorem foldl_addEdge_spec (K : List String) :
    ∀ (es : List GEdge) (m : DAG), dkeys m = K →
    dkeys (es.foldl addEdge m) = K ∧
    ∀ b, nodeDeps (es.foldl addEdge m) b = nodeDeps m b ++
        ((es.filter (fun e =>
          decide (e.source ∈ K) && decide (e.target ∈ K) && (e.target == b))).map
            GEdge.source) ∧
      nodeDependents (es.foldl addEdge m) b = nodeDependents m b ++
        ((es.filter (fun e =>
          decide (e.source ∈ K) && decide (e.target ∈ K) && (e.source == b))).map
            GEdge.target) := by
  intro es
  induction es with
  | nil => intro m hm; simp [hm]
  | cons e rest ih =>
    intro m hm
    have hkeys := (addEdge_spec m e default).1
    rw [List.foldl_cons]
    obtain ⟨ihk, ihb⟩ := ih (addEdge m e) (hkeys.trans hm)
    refine ⟨ihk, fun b => ?_⟩
    obtain ⟨ihd, ihn⟩ := ihb b
    obtain ⟨_, hd, hn⟩ := addEdge_spec m e b
    rw [hm] at hd hn
    constructor
    · rw [ihd, hd, List.append_assoc]
      congr 1
      by_cases hcond : e.target = b ∧ e.source ∈ K ∧ e.target ∈ K
      · rw [if_pos hcond,
          List.filter_cons_of_pos (by
            simp [hcond.1, hcond.2.1, hcond.1 ▸ hcond.2.2])]
        simp
      · rw [if_neg hcond,
          List.filter_cons_of_neg (by
            simp only [Bool.and_eq_true, beq_iff_eq, decide_eq_true_eq]
            tauto)]
        simp
    · rw [ihn, hn, List.append_assoc]
      congr 1
      by_cases hcond : e.source = b ∧ e.source ∈ K ∧ e.target ∈ K
      · rw [if_pos hcond,
          List.filter_cons_of_pos (by
            simp [hcond.1, hcond.2.2, hcond.1 ▸ hcond.2.1])]
        simp
      · rw [if_neg hcond,
          List.filter_cons_of_neg (by
            simp only [Bool.and_eq_true, beq_iff_eq, decide_eq_true_eq]
            tauto)]
        simp

theorem dkeys_parseNodes_of_nodup (g : GraphData) (hnd : (nodeIds g).Nodup) :
    dkeys (parseNodes g) = nodeIds g := by
  unfold parseNodes nodeIds
  unfold nodeIds at hnd
  suffices h : ∀ ns : List GNode, ∀ m : DAG,
      (ns.map GNode.id).Nodup → (∀ i ∈ ns.map GNode.id, i ∉ dkeys m) →
      dkeys (ns.foldl (fun m n => dset m n.id ⟨n.id, n.data, [], []⟩) m)
        = dkeys m ++ ns.map GNode.id by
    have := h g.nodes [] hnd (by simp [dkeys])
    simpa [dkeys] using this
  intro ns
  induction ns with
  | nil => intro m _ _; simp
  | cons n rest ih =>
    intro m hnd2 hfresh
    simp only [List.map_cons, List.nodup_cons] at hnd2
    rw [List.foldl_cons, ih _ hnd2.2, dkeys_dset_not_mem m _ (hfresh n.id (by simp))]
    · simp
    · intro i hi
      rw [mem_dkeys_dset]
      push_neg
      constructor
      · exact hfresh i (by simp [hi])
      · intro he; exact hnd2.1 (he ▸ hi)

/-! ### Kahn elimination: invariants -/

theorem dgetD_dset_self (m : PyDict κ α) (k : κ) (v d : α) :
    dgetD (dset m k v) k d = v := by
  rw [dgetD, dget?_dset_self]; rfl

theorem dgetD_dset_ne (m : PyDict κ α) {k q : κ} (v d : α) (h : q ≠ k) :
    dgetD (dset m k v) q d = dgetD m q d := by
  rw [dgetD, dget?_dset_ne m v h]; rfl

theorem dgetD_eq_default_of_not_mem {m : PyDict κ α} {k : κ} (d : α)
    (h : k ∉ dkeys m) : dgetD m k d = d := by
  rw [dgetD, dget?_eq_none_of_not_mem h]; rfl

theorem dkeys_dset_sub (m : PyDict κ α) (k : κ) (v : α) :
    dkeys (dset m k v) ⊆ dkeys m ++ [k] := by
  intro q hq
  rw [mem_dkeys_dset] at hq
  simp only [List.mem_append, List.mem_singleton]
  exact hq

theorem count_le_countP_not_mem {l out : List String} {x : String}
    (hx : x ∉ out) : l.count x ≤ l.countP (fun d => decide (d ∉ out)) := by
  rw [List.count]
  apply List.countP_mono_left
  intro a _ ha
  simp only [beq_iff_eq] at ha
  subst ha
  simpa using hx

theorem countP_not_mem_split (l out : List String) (x : String) (hx : x ∉ out) :
    l.countP (fun d => decide (d ∉ out)) =
      l.countP (fun d => decide (d ∉ out ++ [x])) + l.count x := by
  induction l with
  | nil => simp
  | cons a rest ih =>
    by_cases hax : a = x
    · subst hax
      rw [List.countP_cons_of_pos _ _ (by simpa using hx),
          List.countP_cons_of_neg _ _ (by simp),
          List.count_cons_self, ih]
      omega
    · by_cases hao : a ∈ out
      · rw [List.countP_cons_of_neg _ _ (by simpa using hao),
            List.countP_cons_of_neg _ _ (by simp [hao]),
            List.count_cons_of_ne (Ne.symm hax), ih]
      · rw [List.countP_cons_of_pos _ _ (by simpa using hao),
            List.countP_cons_of_pos _ _ (by simp [hao, hax]),
            List.count_cons_of_ne (Ne.symm hax), ih]
        omega

theorem countP_not_mem_eq_zero_iff {l out : List String} :
    l.countP (fun d => decide (d ∉ out)) = 0 ↔ ∀ d ∈ l, d ∈ out := by
  rw [List.countP_eq_zero]
  constructor
  · intro h d hd
    by_contra hc
    exact h d hd (by simpa using hc)
  · intro h d hd hc
    simp only [decide_eq_true_eq] at hc
    exact hc (h d hd)

theorem decDependents_spec (L : List String) :
    ∀ (ind : PyDict String Int) (queue : List String),
    (∀ d ∈ L, (L.count d : Int) ≤ dgetD ind d 0) →
    ∃ (indF : PyDict String Int) (A : List String),
      decDependents L ind queue = (indF, queue ++ A) ∧
      (∀ k, dgetD indF k 0 = dgetD ind k 0 - L.count k) ∧
      dkeys indF ⊆ dkeys ind ++ L ∧
      A.Nodup ∧
      (∀ x, x ∈ A ↔ (0 < dgetD ind x 0 ∧ dgetD ind x 0 = L.count x)) ∧
      A ⊆ L := by
  induction L with
  | nil =>
    intro ind queue _
    refine ⟨ind, [], by simp [decDependents], by simp, by simp, by simp, ?_, by simp⟩
    intro x
    simp only [List.not_mem_nil, List.count_nil, false_iff, not_and]
    intro h1 h2
    omega
  | cons d ds ih =>
    intro ind queue hfin
    set v0 : Int := dgetD ind d 0 with hv0
    have hfin_d := hfin d (by simp)
    rw [List.count_cons_self] at hfin_d
    have hfin2 : ∀ x ∈ ds, (ds.count x : Int) ≤ dgetD (dset ind d (v0 - 1)) x 0 := by
      intro x hx
      by_cases hxd : x = d
      · subst hxd
        rw [dgetD_dset_self]
        push_cast at hfin_d ⊢
        omega
      · rw [dgetD_dset_ne _ _ _ hxd]
        have := hfin x (by simp [hx])
        rwa [List.count_cons_of_ne hxd] at this
    obtain ⟨indF, A2, heq, hval, hkeys, hnodupA, hmemA, hsubA⟩ :=
      ih (dset ind d (v0 - 1)) (if v0 - 1 = 0 then queue ++ [d] else queue) hfin2
    refine ⟨indF, (if v0 - 1 = 0 then [d] else []) ++ A2, ?_, ?_, ?_, ?_, ?_, ?_⟩
    · rw [show decDependents (d :: ds) ind queue
          = decDependents ds (dset ind d (dgetD ind d 0 - 1))
            (if dgetD ind d 0 - 1 = 0 then queue ++ [d] else queue) from rfl]
      rw [← hv0, heq]
      by_cases hz : v0 - 1 = 0 <;> simp [hz]
    · intro k
      rw [hval k]
      by_cases hkd : k = d
      · subst hkd
        rw [dgetD_dset_self, List.count_cons_self]
        push_cast
        omega
      · rw [dgetD_dset_ne _ _ _ hkd, List.count_cons_of_ne hkd]
    · intro k hk
      have := hkeys hk
      rcases List.mem_append.mp this with h | h
      · rcases List.mem_append.mp (dkeys_dset_sub ind d (v0 - 1) h) with h2 | h2
        · exact List.mem_append.mpr (Or.inl h2)
        · simp at h2; subst h2; simp
      · simp [h]
    · by_cases hz : v0 - 1 = 0
      · rw [if_pos hz]
        refine List.Nodup.append (by simp) hnodupA ?_
        intro x hx hx2
        simp at hx
        rw [hx] at hx2
        rw [hmemA _, dgetD_dset_self] at hx2
        omega
      · rw [if_neg hz]; simpa using hnodupA
    · intro x
      by_cases hxd : x = d
      · subst hxd
        rw [List.count_cons_self]
        constructor
        · intro hx
          rcases List.mem_append.mp hx with h | h
          · by_cases hz : v0 - 1 = 0
            · rw [if_pos hz] at h
              have hc : (ds.count x : Int) ≤ v0 - 1 := by
                by_cases hmem : x ∈ ds
                · exact hfin2 x hmem |>.trans_eq (by rw [dgetD_dset_self])
                · simp [List.count_eq_zero_of_not_mem hmem]
                  omega
              push_cast at hc ⊢
              constructor
              · omega
              · have : (ds.count x : Int) = 0 := by omega
                omega
            · rw [if_neg hz] at h; simp at h
          · rw [hmemA x, dgetD_dset_self] at h
            push_cast at h ⊢
            omega
        · intro ⟨h1, h2⟩
          by_cases hz : v0 - 1 = 0
          · exact List.mem_append.mpr (Or.inl (by simp [hz]))
          · refine List.mem_append.mpr (Or.inr ?_)
            rw [hmemA x, dgetD_dset_self]
            push_cast at h2 ⊢
            constructor <;> omega
      · rw [List.count_cons_of_ne hxd]
        constructor
        · intro hx
          rcases List.mem_append.mp hx with h | h
          · by_cases hz : v0 - 1 = 0 <;> simp [hz] at h
            exact absurd h hxd
          · rw [hmemA x, dgetD_dset_ne _ _ _ hxd] at h
            exact h
        · intro h
          refine List.mem_append.mpr (Or.inr ?_)
          rw [hmemA x, dgetD_dset_ne _ _ _ hxd]
          exact h
    · intro x hx
      rcases List.mem_append.mp hx with h | h
      · by_cases hz : v0 - 1 = 0 <;> simp [hz] at h
        simp [h]
      · simp [hsubA h]

/-- Loop invariant of the Kahn elimination: `out` is the list of popped
nodes, `queue` the pending zero-in-degree nodes, `ind` the in-degree
dict.  The in-degree of `k` equals the number of `deps k` entries not yet
popped, and the queue holds exactly the unpopped nodes whose deps are all
popped. -/
structure KahnInv (dag : DAG) (ind : PyDict String Int)
    (queue out : List String) : Prop where
  qNodup : queue.Nodup
  oNodup : out.Nodup
  disj : ∀ k ∈ queue, k ∉ out
  qSub : queue ⊆ dkeys dag
  oSub : out ⊆ dkeys dag
  indKeys : dkeys ind ⊆ dkeys dag
  indSpec : ∀ k, dgetD ind k 0 =
    ((nodeDeps dag k).countP (fun d => decide (d ∉ out)) : Int)
  queueSpec : ∀ k ∈ dkeys dag, (k ∈ queue ↔ (k ∉ out ∧ dgetD ind k 0 = 0))
  outClosed : ∀ i (h : i < out.length),
    nodeDeps dag (out.get ⟨i, h⟩) ⊆ out.take i

theorem KahnInv.deps_mem_out {dag : DAG} {ind : PyDict String Int}
    {queue out : List String} (inv : KahnInv dag ind queue out)
    {k : String} (hk : k ∈ out) : ∀ d ∈ nodeDeps dag k, d ∈ out := by
  obtain ⟨i, hi, hget⟩ := List.mem_iff_getElem.mp hk
  intro d hd
  have h1 : nodeDeps dag k ⊆ out.take i := by
    have := inv.outClosed i hi
    simpa [List.get_eq_getElem, hget] using this
  exact List.take_subset i out (h1 hd)

theorem KahnInv.perm {dag : DAG} {ind : PyDict String Int}
    {queue queue2 out : List String} (inv : KahnInv dag ind queue out)
    (hq : queue.Perm queue2) : KahnInv dag ind queue2 out where
  qNodup := inv.qNodup.perm hq
  oNodup := inv.oNodup
  disj := fun k hk => inv.disj k (hq.mem_iff.mpr hk)
  qSub := fun k hk => inv.qSub (hq.mem_iff.mpr hk)
  oSub := inv.oSub
  indKeys := inv.indKeys
  indSpec := inv.indSpec
  queueSpec := fun k hk => (hq.mem_iff.symm).trans (inv.queueSpec k hk)
  outClosed := inv.outClosed

theorem kahnRun_succ_nil {dag : DAG} {sortQ : Bool} {fuel : Nat}
    {ind : PyDict String Int} {queue out : List String}
    (h : (if sortQ then List.insertionSort idLeP queue else queue) = []) :
    kahnRun dag sortQ (fuel + 1) ind queue out = (ind, [], out) := by
  unfold kahnRun
  rw [h]

theorem kahnRun_succ_cons {dag : DAG} {sortQ : Bool} {fuel : Nat}
    {ind : PyDict String Int} {queue out : List String}
    {nid : String} {rest : List String}
    (h : (if sortQ then List.insertionSort idLeP queue else queue) = nid :: rest) :
    kahnRun dag sortQ (fuel + 1) ind queue out =
      kahnRun dag sortQ fuel
        (decDependents (nodeDependents dag nid) ind rest).1
        (decDependents (nodeDependents dag nid) ind rest).2
        (out ++ [nid]) := by
  conv_lhs => unfold kahnRun
  rw [h]

/-- Master lemma about the Kahn elimination loop: run to completion from
any state satisfying the invariant.  The final queue is empty, the
invariant holds again, and with the sort tie-break every popped node is
`≤` every node that was already ready before it was popped. -/
theorem kahnRun_spec (dag : DAG)
    (hdentsub : ∀ a ∈ dkeys dag, nodeDependents dag a ⊆ dkeys dag)
    (hcount : ∀ a b, (nodeDeps dag b).count a = (nodeDependents dag a).count b)
    (sortQ : Bool) :
    ∀ (fuel : Nat) (ind : PyDict String Int) (queue out : List String),
      KahnInv dag ind queue out →
      (dkeys dag).length ≤ fuel + out.length →
      ∃ indF outF,
        kahnRun dag sortQ fuel ind queue out = (indF, [], outF) ∧
        (∃ rest, outF = out ++ rest) ∧
        KahnInv dag indF [] outF ∧
        (sortQ = true →
          ∀ i j (hi : i < outF.length) (hj : j < outF.length),
            out.length ≤ i → i < j →
            nodeDeps dag (outF.get ⟨j, hj⟩) ⊆ outF.take i →
            idLeP (outF.get ⟨i, hi⟩) (outF.get ⟨j, hj⟩) ∧
              outF.get ⟨i, hi⟩ ≠ outF.get ⟨j, hj⟩) := by
  intro fuel
  induction fuel with
  | zero =>
    intro ind queue out inv hfuel
    have hqnil : queue = [] := by
      rcases List.eq_nil_or_concat queue with h | ⟨q0, k, hk⟩
      · exact h
      · exfalso
        have hkq : k ∈ queue := by simp [hk]
        have hsp : out.Subperm (dkeys dag) := inv.oNodup.subperm inv.oSub
        have hlen : (dkeys dag).length ≤ out.length := by simpa using hfuel
        have hperm : out.Perm (dkeys dag) := hsp.perm_of_length_le hlen
        have : k ∈ out := hperm.mem_iff.mpr (inv.qSub hkq)
        exact inv.disj k hkq this
    subst hqnil
    refine ⟨ind, out, by simp [kahnRun], ⟨[], by simp⟩, inv, ?_⟩
    intro _ i j hi hj hle hij _
    omega
  | succ fuel ih =>
    intro ind queue out inv hfuel
    cases hq0 : (if sortQ then List.insertionSort idLeP queue else queue) with
    | nil =>
      have hqnil : queue = [] := by
        by_cases hs : sortQ
        · rw [if_pos hs] at hq0
          have hp : (List.insertionSort idLeP queue).Perm queue :=
            List.perm_insertionSort idLeP queue
          rw [hq0] at hp
          exact (hp.symm).eq_nil
        · rwa [if_neg hs] at hq0
      subst hqnil
      refine ⟨ind, out, kahnRun_succ_nil hq0, ⟨[], by simp⟩, inv, ?_⟩
      intro _ i j hi hj hle hij _
      omega
    | cons nid rest =>
      have hqperm : queue.Perm (nid :: rest) := by
        by_cases hs : sortQ
        · rw [if_pos hs] at hq0
          exact (List.perm_insertionSort idLeP queue).symm.trans (by rw [hq0])
        · rw [if_neg hs] at hq0; rw [hq0]
      have inv2 := inv.perm hqperm
      have hnidq : nid ∈ dkeys dag := inv2.qSub (by simp)
      have hnidout : nid ∉ out := inv2.disj nid (by simp)
      have hnidind : dgetD ind nid 0 = 0 :=
        ((inv2.queueSpec nid hnidq).mp (by simp)).2
      have hnidzero : (nodeDeps dag nid).countP (fun d => decide (d ∉ out)) = 0 := by
        have := inv2.indSpec nid
        rw [hnidind] at this
        exact_mod_cast this.symm
      set L := nodeDependents dag nid with hL
      have hfin : ∀ d ∈ L, (L.count d : Int) ≤ dgetD ind d 0 := by
        intro d hd
        rw [inv2.indSpec d]
        have h1 : L.count d = (nodeDeps dag d).count nid := (hcount nid d).symm
        rw [h1]
        exact_mod_cast count_le_countP_not_mem hnidout
      obtain ⟨indF, A, heq, hval, hkeysF, hAnodup, hAmem, hAsub⟩ :=
        decDependents_spec L ind rest hfin
      have hA_not_queue : ∀ x ∈ A, x ∉ (nid :: rest) := by
        intro x hx hxq
        have h0 : dgetD ind x 0 = 0 := ((inv2.queueSpec x (inv2.qSub hxq)).mp hxq).2
        have := (hAmem x).mp hx
        omega
      have hA_not_out : ∀ x ∈ A, x ∉ out := by
        intro x hx hxo
        have h1 : (nodeDeps dag x).countP (fun d => decide (d ∉ out)) = 0 :=
          countP_not_mem_eq_zero_iff.mpr (inv2.deps_mem_out hxo)
        have h2 := inv2.indSpec x
        rw [h1] at h2
        have := (hAmem x).mp hx
        omega
      have hA_sub_keys : A ⊆ dkeys dag := fun x hx =>
        hdentsub nid hnidq (hAsub hx)
      have hrestout : ∀ x ∈ rest, x ∉ out ++ [nid] := by
        intro x hx
        simp only [List.mem_append, List.mem_singleton]
        push_neg
        refine ⟨inv2.disj x (by simp [hx]), ?_⟩
        intro he
        subst he
        exact (List.nodup_cons.mp inv2.qNodup).1 hx
      have inv3 : KahnInv dag indF (rest ++ A) (out ++ [nid]) := by
        refine ⟨?_, ?_, ?_, ?_, ?_, ?_, ?_, ?_, ?_⟩
        · refine List.Nodup.append (List.nodup_cons.mp inv2.qNodup).2 hAnodup ?_
          intro x hx hx2
          exact hA_not_queue x hx2 (by simp [hx])
        · rw [List.nodup_append]
          refine ⟨inv.oNodup, by simp, ?_⟩
          intro x hx hx2
          simp at hx2
          subst hx2
          exact hnidout hx
        · intro k hk
          rcases List.mem_append.mp hk with h | h
          · exact hrestout k h
          · simp only [List.mem_append, List.mem_singleton]
            push_neg
            exact ⟨hA_not_out k h, fun he => hA_not_queue k h (by simp [he])⟩
        · intro k hk
          rcases List.mem_append.mp hk with h | h
          · exact inv2.qSub (by simp [h])
          · exact hA_sub_keys h
        · intro k hk
          rcases List.mem_append.mp hk with h | h
          · exact inv.oSub h
          · simp at h; subst h; exact hnidq
        · intro k hk
          rcases List.mem_append.mp (hkeysF hk) with h | h
          · exact inv.indKeys h
          · exact hdentsub nid hnidq (hL ▸ h)
        · intro k
          rw [hval k]
          have h1 : (L.count k : Int) = ((nodeDeps dag k).count nid : Int) := by
            exact_mod_cast (hcount nid k).symm
          rw [inv2.indSpec k, h1]
          have h2 := countP_not_mem_split (nodeDeps dag k) out nid hnidout
          omega
        · intro k hk
          constructor
          · intro hkq
            rcases List.mem_append.mp hkq with h | h
            · refine ⟨hrestout k h, ?_⟩
              have h0 : dgetD ind k 0 = 0 :=
                ((inv2.queueSpec k hk).mp (by simp [h])).2
              have h2 : (0:Int) ≤ dgetD indF k 0 := by
                rw [hval k, inv2.indSpec k]
                have h3 : (L.count k : Int) = ((nodeDeps dag k).count nid : Int) := by
                  exact_mod_cast (hcount nid k).symm
                rw [h3]
                have h4 := count_le_countP_not_mem (l := nodeDeps dag k) hnidout
                omega
              have h5 := hval k
              rw [h0] at h5
              omega
            · refine ⟨fun hko => ?_, ?_⟩
              · rcases List.mem_append.mp hko with h2 | h2
                · exact hA_not_out k h h2
                · simp at h2; exact hA_not_queue k h (by simp [h2])
              · have := (hAmem k).mp h
                rw [hval k]
                omega
          · rintro ⟨hko, hkz⟩
            simp only [List.mem_append, List.mem_singleton] at hko
            push_neg at hko
            obtain ⟨hko1, hko2⟩ := hko
            rw [hval k] at hkz
            by_cases hc : L.count k = 0
            · have h0 : dgetD ind k 0 = 0 := by
                rw [hc] at hkz
                push_cast at hkz
                omega
              have hkmem : k ∈ nid :: rest := (inv2.queueSpec k hk).mpr ⟨hko1, h0⟩
              rcases List.mem_cons.mp hkmem with h | h
              · exact absurd h hko2
              · exact List.mem_append.mpr (Or.inl h)
            · refine List.mem_append.mpr (Or.inr ?_)
              rw [hAmem k]
              have hpos : 0 < L.count k := Nat.pos_of_ne_zero hc
              omega
        · intro i h
          have hlen2 : i < out.length + 1 := by simpa using h
          by_cases hi : i < out.length
          · have hget : (out ++ [nid]).get ⟨i, h⟩ = out.get ⟨i, hi⟩ := by
              simp [List.get_eq_getElem, List.getElem_append_left hi]
            rw [hget, List.take_append_of_le_length (by omega)]
            exact inv.outClosed i hi
          · have hieq : i = out.length := by omega
            subst hieq
            have hget : (out ++ [nid]).get ⟨out.length, h⟩ = nid := by
              rw [List.get_eq_getElem,
                List.getElem_append_right (le_refl out.length)]
              simp
            rw [hget, List.take_append_of_le_length (le_refl _)]
            intro d hd
            have hdo : d ∈ out := countP_not_mem_eq_zero_iff.mp hnidzero d hd
            simpa using hdo
      have hfuel2 : (dkeys dag).length ≤ fuel + (out ++ [nid]).length := by
        rw [List.length_append, List.length_singleton]
        omega
      obtain ⟨indR, outR, hrun, ⟨rest2, hrest2⟩, invR, tbR⟩ :=
        ih indF (rest ++ A) (out ++ [nid]) inv3 hfuel2
      subst hrest2
      refine ⟨indR, out ++ [nid] ++ rest2, ?_,
        ⟨[nid] ++ rest2, by rw [List.append_assoc]⟩, invR, ?_⟩
      · rw [kahnRun_succ_cons hq0,
          show decDependents (nodeDependents dag nid) ind rest = (indF, rest ++ A)
            from heq]
        exact hrun
      · intro hs i j hi hj hle hij hdep
        by_cases hiout : out.length < i
        · exact tbR hs i j hi hj (by simp; omega) hij hdep
        · have hieq : i = out.length := by omega
          subst hieq
          have hsorted : List.Pairwise idLeP (nid :: rest) := by
            rw [if_pos hs] at hq0
            rw [← hq0]
            exact List.sorted_insertionSort idLeP queue
          have hgeti : (out ++ [nid] ++ rest2).get ⟨out.length, hi⟩ = nid := by
            rw [List.get_eq_getElem,
              List.getElem_append_left (show out.length < (out ++ [nid]).length by
                simp),
              List.getElem_append_right (le_refl out.length)]
            simp
          set w := (out ++ [nid] ++ rest2).get ⟨j, hj⟩ with hw
          have hwmem : w ∈ out ++ [nid] ++ rest2 := by
            rw [hw]; exact List.get_mem ..
          have hwkeys : w ∈ dkeys dag := invR.oSub hwmem
          have hwout : w ∉ out := by
            intro hwo
            obtain ⟨i2, hi2, hget2⟩ := List.mem_iff_getElem.mp hwo
            have hlt : i2 < (out ++ [nid] ++ rest2).length := by simp; omega
            have hg3 : (out ++ [nid] ++ rest2).get ⟨i2, hlt⟩ = w := by
              rw [List.get_eq_getElem,
                List.getElem_append_left
                  (show i2 < (out ++ [nid]).length by simp; omega),
                List.getElem_append_left hi2]
              exact hget2
            have hej : i2 = j := by
              have hinj := @List.Nodup.getElem_inj_iff _ _ invR.oNodup i2 hlt j hj
              apply hinj.mp
              show (out ++ [nid] ++ rest2).get ⟨i2, hlt⟩
                = (out ++ [nid] ++ rest2).get ⟨j, hj⟩
              rw [hg3]
            omega
          have hwnid : w ≠ nid := by
            intro he
            have hej : out.length = j := by
              have hinj := @List.Nodup.getElem_inj_iff _ _ invR.oNodup
                out.length hi j hj
              apply hinj.mp
              show (out ++ [nid] ++ rest2).get ⟨out.length, hi⟩
                = (out ++ [nid] ++ rest2).get ⟨j, hj⟩
              rw [hgeti]
              exact he.symm
            omega
          have hdepw : nodeDeps dag w ⊆ out := by
            intro d hd
            have h2 := hdep hd
            rw [List.append_assoc,
              List.take_append_of_le_length (le_refl out.length)] at h2
            simpa using h2
          have hwind : dgetD ind w 0 = 0 := by
            rw [inv2.indSpec w]
            have h3 : (nodeDeps dag w).countP (fun d => decide (d ∉ out)) = 0 :=
              countP_not_mem_eq_zero_iff.mpr (fun d hd => hdepw hd)
            rw [h3]
            rfl
          have hwqueue : w ∈ nid :: rest :=
            (inv2.queueSpec w hwkeys).mpr ⟨hwout, hwind⟩
          have hwrest : w ∈ rest := by
            rcases List.mem_cons.mp hwqueue with h | h
            · exact absurd h hwnid
            · exact h
          rw [hgeti]
          exact ⟨List.rel_of_pairwise_cons hsorted hwrest, Ne.symm hwnid⟩

/-! ### Initial state and well-formedness of the parsed DAG -/

theorem initInDegree_get (dag : DAG) (k : String) :
    dget? (initInDegree dag) k = (dget? dag k).map (fun nd => (nd.deps.length : Int)) := by
  unfold initInDegree
  exact dget?_map dag (fun _ nd => (nd.deps.length : Int)) k

theorem mem_initQueue_iff (dag : DAG) (hnd : (dkeys dag).Nodup) (k : String) :
    k ∈ initQueue dag ↔ (∃ nd, dget? dag k = some nd ∧ nd.deps.length = 0) := by
  unfold initQueue
  constructor
  · intro h
    obtain ⟨p, hp, hfst⟩ := List.mem_map.mp h
    obtain ⟨hpm, hpd⟩ := List.mem_filter.mp hp
    obtain ⟨k2, nd⟩ := p
    simp only at hfst
    subst hfst
    refine ⟨nd, dget?_eq_some_of_mem_of_nodup hpm hnd, by simpa using hpd⟩
  · rintro ⟨nd, hget, hdeps⟩
    refine List.mem_map.mpr ⟨(k, nd), List.mem_filter.mpr ⟨mem_of_dget?_eq_some hget, by simpa using hdeps⟩, rfl⟩

theorem initQueue_nodup (dag : DAG) (hnd : (dkeys dag).Nodup) :
    (initQueue dag).Nodup := by
  unfold initQueue
  have hsub : (dag.filter (fun p => p.2.deps.length == 0)).map Prod.fst |>.Sublist (dag.map Prod.fst) :=
    (List.filter_sublist dag).map Prod.fst
  exact hsub.nodup hnd

theorem initQueue_sub (dag : DAG) : initQueue dag ⊆ dkeys dag := by
  intro k hk
  obtain ⟨p, hp, hfst⟩ := List.mem_map.mp hk
  exact hfst ▸ List.mem_map_of_mem Prod.fst (List.mem_of_mem_filter hp)

/-- The initial state of the elimination loop satisfies the invariant. -/
theorem initInv (dag : DAG) (hnd : (dkeys dag).Nodup) :
    KahnInv dag (initInDegree dag) (initQueue dag) [] where
  qNodup := initQueue_nodup dag hnd
  oNodup := by simp
  disj := by simp
  qSub := initQueue_sub dag
  oSub := by simp
  indKeys := by
    intro k hk
    unfold initInDegree dkeys at hk
    rw [List.map_map] at hk
    simpa [dkeys] using hk
  indSpec := by
    intro k
    rw [dgetD, initInDegree_get]
    cases hg : dget? dag k with
    | none =>
      rw [show nodeDeps dag k = [] by unfold nodeDeps; rw [hg]; rfl]
      simp
    | some nd =>
      rw [show nodeDeps dag k = nd.deps by unfold nodeDeps; rw [hg]; rfl]
      have hc : List.countP (fun d => decide (d ∉ ([] : List String))) nd.deps
          = nd.deps.length := by
        rw [List.countP_eq_length]
        intro a _
        simp
      simp [hc]
  queueSpec := by
    intro k hk
    rw [mem_initQueue_iff dag hnd k]
    rw [mem_dkeys_iff_dget?] at hk
    constructor
    · rintro ⟨nd, hget, hz⟩
      refine ⟨by simp, ?_⟩
      rw [dgetD, initInDegree_get, hget]
      simpa using hz
    · rintro ⟨-, hz⟩
      rw [dgetD, initInDegree_get] at hz
      cases hg : dget? dag k with
      | none => rw [hg] at hk; simp at hk
      | some nd =>
        rw [hg] at hz
        simp at hz
        exact ⟨nd, rfl, by simp [hz]⟩
  outClosed := by
    intro i h
    simp at h

theorem parse_graph_keys (g : GraphData) :
    dkeys (parse_graph g) = dkeys (parseNodes g) :=
  (foldl_addEdge_spec (dkeys (parseNodes g)) g.edges (parseNodes g) rfl).1

theorem mem_dkeys_parse_graph (g : GraphData) (k : String) :
    k ∈ dkeys (parse_graph g) ↔ k ∈ nodeIds g := by
  rw [parse_graph_keys]
  exact mem_dkeys_parseNodes g k

theorem dkeys_parse_graph_nodup (g : GraphData) :
    (dkeys (parse_graph g)).Nodup := by
  rw [parse_graph_keys]
  exact dkeys_parseNodes_nodup g

theorem nodeDeps_parse_graph (g : GraphData) (b : String) :
    nodeDeps (parse_graph g) b = gdeps g b := by
  have h := ((foldl_addEdge_spec (dkeys (parseNodes g)) g.edges (parseNodes g)
    rfl).2 b).1
  rw [(parseNodes_deps_nil g b).1] at h
  rw [show parse_graph g = g.edges.foldl addEdge (parseNodes g) from rfl, h]
  unfold gdeps liveEdges
  rw [List.filter_filter, List.nil_append]
  congr 1
  apply List.filter_congr
  intro e _
  have h1 : decide (e.source ∈ dkeys (parseNodes g))
      = decide (e.source ∈ nodeIds g) :=
    decide_eq_decide.mpr (mem_dkeys_parseNodes g e.source)
  have h2 : decide (e.target ∈ dkeys (parseNodes g))
      = decide (e.target ∈ nodeIds g) :=
    decide_eq_decide.mpr (mem_dkeys_parseNodes g e.target)
  rw [h1, h2]
  simp [Bool.and_comm, Bool.and_assoc, Bool.and_left_comm]

theorem nodeDependents_parse_graph (g : GraphData) (a : String) :
    nodeDependents (parse_graph g) a = gdents g a := by
  have h := ((foldl_addEdge_spec (dkeys (parseNodes g)) g.edges (parseNodes g)
    rfl).2 a).2
  rw [(parseNodes_deps_nil g a).2] at h
  rw [show parse_graph g = g.edges.foldl addEdge (parseNodes g) from rfl, h]
  unfold gdents liveEdges
  rw [List.filter_filter, List.nil_append]
  congr 1
  apply List.filter_congr
  intro e _
  have h1 : decide (e.source ∈ dkeys (parseNodes g))
      = decide (e.source ∈ nodeIds g) :=
    decide_eq_decide.mpr (mem_dkeys_parseNodes g e.source)
  have h2 : decide (e.target ∈ dkeys (parseNodes g))
      = decide (e.target ∈ nodeIds g) :=
    decide_eq_decide.mpr (mem_dkeys_parseNodes g e.target)
  rw [h1, h2]
  simp [Bool.and_comm, Bool.and_assoc, Bool.and_left_comm]

theorem gdeps_sub (g : GraphData) (b : String) : gdeps g b ⊆ nodeIds g := by
  intro a ha
  obtain ⟨e, he, hsrc⟩ := List.mem_map.mp ha
  have := List.mem_of_mem_filter he
  have hlive := (List.mem_filter.mp this).2
  simp only [Bool.and_eq_true, decide_eq_true_eq] at hlive
  exact hsrc ▸ hlive.1

theorem gdents_sub (g : GraphData) (a : String) : gdents g a ⊆ nodeIds g := by
  intro b hb
  obtain ⟨e, he, htgt⟩ := List.mem_map.mp hb
  have := List.mem_of_mem_filter he
  have hlive := (List.mem_filter.mp this).2
  simp only [Bool.and_eq_true, decide_eq_true_eq] at hlive
  exact htgt ▸ hlive.2

theorem count_gdeps_gdents (g : GraphData) (a b : String) :
    (gdeps g b).count a = (gdents g a).count b := by
  unfold gdeps gdents
  rw [List.count_eq_countP, List.count_eq_countP, List.countP_map, List.countP_map,
    List.countP_filter, List.countP_filter]
  apply List.countP_congr
  intro e _
  simp only [Function.comp_apply, beq_iff_eq, Bool.and_eq_true, decide_eq_true_eq]
  tauto

/-- All well-formedness facts about the parsed DAG needed by the Kahn
machinery. -/
theorem parse_graph_wf (g : GraphData) :
    (dkeys (parse_graph g)).Nodup ∧
    (∀ a ∈ dkeys (parse_graph g),
      nodeDependents (parse_graph g) a ⊆ dkeys (parse_graph g)) ∧
    (∀ a b, (nodeDeps (parse_graph g) b).count a
      = (nodeDependents (parse_graph g) a).count b) := by
  refine ⟨dkeys_parse_graph_nodup g, ?_, ?_⟩
  · intro a _ b hb
    rw [nodeDependents_parse_graph] at hb
    rw [mem_dkeys_parse_graph]
    exact gdents_sub g a hb
  · intro a b
    rw [nodeDeps_parse_graph, nodeDependents_parse_graph]
    exact count_gdeps_gdents g a b

/-! ### Cycles versus the elimination order -/

theorem onCycle_pred {g : GraphData} {x : String} (h : OnCycle g x) :
    ∃ d, EdgeRel g d x ∧ OnCycle g d := by
  obtain ⟨b, hb1, hb2⟩ := Relation.TransGen.tail'_iff.mp h
  exact ⟨b, hb2, Relation.TransGen.trans_left (Relation.TransGen.single hb2) hb1⟩

theorem onCycle_mem {g : GraphData} {n : String} (h : OnCycle g n) :
    n ∈ nodeIds g := by
  obtain ⟨d, hd, -⟩ := onCycle_pred h
  unfold EdgeRel gdeps at hd
  obtain ⟨e, he, hsrc⟩ := List.mem_map.mp hd
  obtain ⟨hlv, htg⟩ := List.mem_filter.mp he
  have h3 := (List.mem_filter.mp hlv).2
  simp only [Bool.and_eq_true, decide_eq_true_eq] at h3
  have h4 : e.target = n := by simpa using htg
  exact h4 ▸ h3.2

theorem outClosed_no_cycle (g : GraphData) (out : List String)
    (hclosed : ∀ i (h : i < out.length),
      nodeDeps (parse_graph g) (out.get ⟨i, h⟩) ⊆ out.take i) :
    ∀ n ∈ out, ¬ OnCycle g n := by
  suffices h : ∀ i (hi : i < out.length), ¬ OnCycle g (out.get ⟨i, hi⟩) by
    intro n hn hc
    obtain ⟨i, hi, hget⟩ := List.mem_iff_getElem.mp hn
    exact h i hi (by
      rw [show out.get ⟨i, hi⟩ = out[i] from rfl, hget]
      exact hc)
  intro i
  induction i using Nat.strong_induction_on with
  | _ i ih =>
    intro hi hc
    obtain ⟨d, hd, hdc⟩ := onCycle_pred hc
    have hd2 : d ∈ nodeDeps (parse_graph g) (out.get ⟨i, hi⟩) := by
      rw [nodeDeps_parse_graph]
      exact hd
    have hd3 := hclosed i hi hd2
    obtain ⟨i2, hlt, hget2⟩ := List.mem_iff_getElem.mp hd3
    have hi2i : i2 < i := by
      have := hlt
      rw [List.length_take] at this
      omega
    have hi2len : i2 < out.length := by omega
    have hget3 : out.get ⟨i2, hi2len⟩ = d := by
      rw [show out.get ⟨i2, hi2len⟩ = out[i2] from rfl]
      rw [← List.getElem_take (L := out) (j := i) (i := i2) (h := hlt)]
      exact hget2
    exact ih i2 hi2i hi2len (hget3 ▸ hdc)

theorem exists_cycle_of_forall_pred {R : String → String → Prop}
    (S : List String) (u0 : String) (hu0 : u0 ∈ S)
    (H : ∀ u ∈ S, ∃ d ∈ S, R d u) : ∃ n, Relation.TransGen R n n := by
  classical
  let f : ℕ → {x // x ∈ S} := fun k =>
    Nat.rec ⟨u0, hu0⟩
      (fun _ p => ⟨Classical.choose (H p.1 p.2),
        (Classical.choose_spec (H p.1 p.2)).1⟩) k
  have hstep : ∀ k, R (f (k + 1)).1 (f k).1 := by
    intro k
    exact (Classical.choose_spec (H (f k).1 (f k).2)).2
  have hchain : ∀ j i, i < j → Relation.TransGen R (f j).1 (f i).1 := by
    intro j
    induction j with
    | zero => intro i hij; omega
    | succ j ihj =>
      intro i hij
      rcases Nat.lt_succ_iff_lt_or_eq.mp hij with h | h
      · exact (Relation.TransGen.single (hstep j)).trans (ihj i h)
      · subst h
        exact Relation.TransGen.single (hstep i)
  have hmap : ∀ k ∈ Finset.range (S.length + 1), (f k).1 ∈ S.toFinset :=
    fun k _ => List.mem_toFinset.mpr (f k).2
  have hcard : S.toFinset.card < (Finset.range (S.length + 1)).card := by
    rw [Finset.card_range]
    have := S.toFinset_card_le
    omega
  obtain ⟨x, hx, y, hy, hxy, hfe⟩ :=
    Finset.exists_ne_map_eq_of_card_lt_of_maps_to hcard hmap
  rcases Nat.lt_or_ge x y with h | h
  · refine ⟨(f x).1, ?_⟩
    have h2 := hchain y x h
    rw [← hfe] at h2
    exact h2
  · have hyx : y < x := by omega
    refine ⟨(f y).1, ?_⟩
    have h2 := hchain x y hyx
    rw [hfe] at h2
    exact h2

theorem keys_sub_out_of_no_cycle (g : GraphData) {indF : PyDict String Int}
    {outF : List String} (inv : KahnInv (parse_graph g) indF [] outF)
    (hnc : ¬ HasCycle g) : ∀ k ∈ dkeys (parse_graph g), k ∈ outF := by
  by_contra hcon
  push_neg at hcon
  obtain ⟨k0, hk0, hk0o⟩ := hcon
  set S := (dkeys (parse_graph g)).filter (fun x => decide (x ∉ outF)) with hS
  have hk0S : k0 ∈ S := List.mem_filter.mpr ⟨hk0, by simpa using hk0o⟩
  have H : ∀ u ∈ S, ∃ d ∈ S, EdgeRel g d u := by
    intro u hu
    obtain ⟨huk, huo⟩ := List.mem_filter.mp hu
    have huo2 : u ∉ outF := by simpa using huo
    have hind : dgetD indF u 0 ≠ 0 := by
      intro hz
      have := (inv.queueSpec u huk).mpr ⟨huo2, hz⟩
      simp at this
    rw [inv.indSpec u] at hind
    have hcz : (nodeDeps (parse_graph g) u).countP
        (fun d => decide (d ∉ outF)) ≠ 0 := by
      intro hz
      rw [hz] at hind
      exact hind rfl
    obtain ⟨d, hdmem, hdp⟩ : ∃ d ∈ nodeDeps (parse_graph g) u, d ∉ outF := by
      by_contra hno
      push_neg at hno
      exact hcz (countP_not_mem_eq_zero_iff.mpr hno)
    have hdkeys : d ∈ dkeys (parse_graph g) := by
      rw [mem_dkeys_parse_graph]
      rw [nodeDeps_parse_graph] at hdmem
      exact gdeps_sub g u hdmem
    refine ⟨d, List.mem_filter.mpr ⟨hdkeys, by simpa using hdp⟩, ?_⟩
    rw [show EdgeRel g d u ↔ d ∈ gdeps g u from Iff.rfl, ← nodeDeps_parse_graph]
    exact hdmem
  exact hnc (exists_cycle_of_forall_pred S k0 hk0S H)

/-! ### Characterization of cycle detection -/

theorem kahn_full_run (g : GraphData) (sortQ : Bool) :
    ∃ indF outF,
      kahnRun (parse_graph g) sortQ (parse_graph g).length
        (initInDegree (parse_graph g)) (initQueue (parse_graph g)) []
        = (indF, [], outF) ∧
      KahnInv (parse_graph g) indF [] outF ∧
      (sortQ = true →
        ∀ i j (hi : i < outF.length) (hj : j < outF.length), i < j →
          nodeDeps (parse_graph g) (outF.get ⟨j, hj⟩) ⊆ outF.take i →
          idLeP (outF.get ⟨i, hi⟩) (outF.get ⟨j, hj⟩) ∧
            outF.get ⟨i, hi⟩ ≠ outF.get ⟨j, hj⟩) := by
  obtain ⟨hnd, hdentsub, hcount⟩ := parse_graph_wf g
  have hfuel : (dkeys (parse_graph g)).length
      ≤ (parse_graph g).length + ([] : List String).length := by
    simp [dkeys]
  obtain ⟨indF, outF, hrun, -, invF, tb⟩ :=
    kahnRun_spec (parse_graph g) hdentsub hcount sortQ (parse_graph g).length
      (initInDegree (parse_graph g)) (initQueue (parse_graph g)) []
      (initInv (parse_graph g) hnd) hfuel
  exact ⟨indF, outF, hrun, invF, fun hs i j hi hj hij hd =>
    tb hs i j hi hj (by simp) hij hd⟩

theorem out_all_keys_iff (g : GraphData) {indF : PyDict String Int}
    {outF : List String} (inv : KahnInv (parse_graph g) indF [] outF) :
    outF.length = (parse_graph g).length
      ↔ ∀ k ∈ dkeys (parse_graph g), k ∈ outF := by
  have hkl : (dkeys (parse_graph g)).length = (parse_graph g).length :=
    List.length_map _ _
  constructor
  · intro hlen k hk
    have hsp : outF.Subperm (dkeys (parse_graph g)) :=
      inv.oNodup.subperm inv.oSub
    have hperm : outF.Perm (dkeys (parse_graph g)) :=
      hsp.perm_of_length_le (by omega)
    exact hperm.symm.subset hk
  · intro hall
    have hsp1 : outF.Subperm (dkeys (parse_graph g)) :=
      inv.oNodup.subperm inv.oSub
    have hsp2 : (dkeys (parse_graph g)).Subperm outF :=
      (dkeys_parse_graph_nodup g).subperm hall
    have := hsp1.length_le
    have := hsp2.length_le
    omega

theorem detect_cycles_spec (g : GraphData) :
    (detect_cycles (parse_graph g) = Except.ok () ↔ ¬ HasCycle g) ∧
    (HasCycle g → ∃ w, detect_cycles (parse_graph g) = Except.error w ∧
      ∀ n, OnCycle g n → n ∈ w) := by
  obtain ⟨indF, outF, hrun, invF, -⟩ := kahn_full_run g false
  have hdc : detect_cycles (parse_graph g)
      = (if outF.length = (parse_graph g).length then Except.ok ()
         else Except.error
           ((indF.filter (fun p => decide (0 < p.2))).map Prod.fst)) := by
    unfold detect_cycles
    rw [hrun]
  have hnocyc_out : ∀ n ∈ outF, ¬ OnCycle g n :=
    outClosed_no_cycle g outF invF.outClosed
  constructor
  · constructor
    · intro hok hc
      obtain ⟨n, hn⟩ := hc
      have hmemk : n ∈ dkeys (parse_graph g) :=
        (mem_dkeys_parse_graph g n).mpr (onCycle_mem hn)
      by_cases hlen : outF.length = (parse_graph g).length
      · exact hnocyc_out n ((out_all_keys_iff g invF).mp hlen n hmemk) hn
      · rw [hdc, if_neg hlen] at hok
        simp at hok
    · intro hnc
      rw [hdc,
        if_pos ((out_all_keys_iff g invF).mpr (keys_sub_out_of_no_cycle g invF hnc))]
  · intro hc
    obtain ⟨n0, hn0⟩ := hc
    have hlen : outF.length ≠ (parse_graph g).length := by
      intro hlen
      exact hnocyc_out n0 ((out_all_keys_iff g invF).mp hlen n0
        ((mem_dkeys_parse_graph g n0).mpr (onCycle_mem hn0))) hn0
    refine ⟨_, by rw [hdc, if_neg hlen], ?_⟩
    intro n hn
    have hkeys : n ∈ dkeys (parse_graph g) :=
      (mem_dkeys_parse_graph g n).mpr (onCycle_mem hn)
    have hnout : n ∉ outF := fun hmem => hnocyc_out n hmem hn
    have hind : dgetD indF n 0 ≠ 0 := by
      intro hz
      have := (invF.queueSpec n hkeys).mpr ⟨hnout, hz⟩
      simp at this
    have hpos : 0 < dgetD indF n 0 := by
      rw [invF.indSpec n] at hind ⊢
      omega
    cases hg : dget? indF n with
    | none =>
      rw [dgetD, hg] at hpos
      simp at hpos
    | some v =>
      have hv : 0 < v := by
        rw [dgetD, hg] at hpos
        simpa using hpos
      exact List.mem_map.mpr ⟨(n, v),
        List.mem_filter.mpr ⟨mem_of_dget?_eq_some hg, by simpa using hv⟩, rfl⟩

/-! ### Claim C5 -/

/-- C5: `create_execution_plan` raises `EmptyWorkflowError` exactly when
the node list is empty; for a graph with an edge-induced cycle it raises
`CircularDependencyError` whose `cycle_nodes` witness (the keys left with
positive in-degree after Kahn elimination) contains every node that
participates in a cycle; for acyclic non-empty graphs neither error is
raised. -/
theorem C5_planner_errors (g : GraphData) :
    (create_execution_plan g = Except.error PlanError.emptyWorkflow ↔
      g.nodes = []) ∧
    (g.nodes ≠ [] → HasCycle g →
      ∃ w, create_execution_plan g
          = Except.error (PlanError.circularDependency w) ∧
        ∀ n, OnCycle g n → n ∈ w) ∧
    (g.nodes ≠ [] → ¬ HasCycle g →
      ∃ p, create_execution_plan g = Except.ok p) := by
  obtain ⟨hok_iff, herr⟩ := detect_cycles_spec g
  by_cases hne : g.nodes = []
  · refine ⟨⟨fun _ => hne, fun _ => ?_⟩,
      fun h => absurd hne h, fun h => absurd hne h⟩
    unfold create_execution_plan
    rw [if_pos (by simp [hne])]
  · refine ⟨⟨?_, fun h => absurd h hne⟩, ?_, ?_⟩
    · intro hres
      exfalso
      unfold create_execution_plan at hres
      rw [if_neg (by simp [hne])] at hres
      cases hd : detect_cycles (parse_graph g) with
      | error cyc => simp only [hd] at hres; simp at hres
      | ok u =>
        cases u
        simp only [hd] at hres
        simp at hres
    · intro _ hc
      obtain ⟨w, hw, hwmem⟩ := herr hc
      refine ⟨w, ?_, hwmem⟩
      unfold create_execution_plan
      rw [if_neg (by simp [hne])]
      simp only [hw]
    · intro _ hnc
      have hok := hok_iff.mpr hnc
      cases hp : create_execution_plan g with
      | error e =>
        exfalso
        unfold create_execution_plan at hp
        rw [if_neg (by simp [hne])] at hp
        simp only [hok] at hp
        simp at hp
      | ok p => exact ⟨p, rfl⟩

/-- A concrete two-node cyclic graph used as witness input. -/
theorem C5_planner_errors_witness :
    gCyc.nodes ≠ [] ∧ HasCycle gCyc ∧
    (∃ w, create_execution_plan gCyc
        = Except.error (PlanError.circularDependency w) ∧
      "a" ∈ w ∧ "b" ∈ w) := by
  have hab : "a" ∈ gdeps gCyc "b" := by decide
  have hba : "b" ∈ gdeps gCyc "a" := by decide
  have hcyca : OnCycle gCyc "a" :=
    Relation.TransGen.head (b := "b") hab (Relation.TransGen.single hba)
  have hcycb : OnCycle gCyc "b" :=
    Relation.TransGen.head (b := "a") hba (Relation.TransGen.single hab)
  have hne : gCyc.nodes ≠ [] := by decide
  obtain ⟨w, hw, hmem⟩ := (C5_planner_errors gCyc).2.1 hne ⟨"a", hcyca⟩
  exact ⟨hne, ⟨"a", hcyca⟩, ⟨w, hw, hmem "a" hcyca, hmem "b" hcycb⟩⟩

/-! ### Group assignment -/

theorem foldl_max_le {l : List Nat} {a b : Nat} (h : a ≤ b) :
    l.foldl max a ≤ l.foldl max b := by
  induction l generalizing a b with
  | nil => simpa using h
  | cons x xs ih => exact ih (by omega)

theorem le_foldl_max_seed (l : List Nat) (a : Nat) : a ≤ l.foldl max a := by
  induction l generalizing a with
  | nil => simp
  | cons x xs ih => exact le_trans (by omega) (ih (max a x))

theorem le_foldl_max (l : List Nat) (a : Nat) : ∀ x ∈ l, x ≤ l.foldl max a := by
  induction l generalizing a with
  | nil => simp
  | cons y ys ih =>
    intro x hx
    rcases List.mem_cons.mp hx with h | h
    · subst h
      exact le_trans (le_max_right a x) (le_foldl_max_seed ys (max a x))
    · exact ih (max a y) x h

theorem foldl_max_mem (l : List Nat) (a : Nat) :
    l.foldl max a = a ∨ l.foldl max a ∈ l := by
  induction l generalizing a with
  | nil => left; rfl
  | cons x xs ih =>
    rcases ih (max a x) with h | h
    · rcases Nat.le_total a x with h2 | h2
      · right
        rw [List.foldl_cons, h]
        simp [Nat.max_eq_right h2]
      · left
        rw [List.foldl_cons, h]
        exact Nat.max_eq_left h2
    · right
      exact List.mem_cons_of_mem x h

theorem length_filterMap_if {α β : Type} (l : List α) (q : α → Prop)
    [DecidablePred q] (f : α → β) :
    (l.filterMap (fun x => if q x then some (f x) else none)).length
      = l.countP (fun x => decide (q x)) := by
  induction l with
  | nil => simp
  | cons x xs ih =>
    by_cases hq : q x
    · rw [List.filterMap_cons, if_pos hq,
        List.countP_cons_of_pos _ _ (by simpa using hq)]
      simp [ih]
    · rw [List.filterMap_cons, if_neg hq,
        List.countP_cons_of_neg _ _ (by simpa using hq)]
      simpa using ih

theorem countP_filterMap_if {α β : Type} (l : List α) (q : α → Prop)
    [DecidablePred q] (f : α → β) (p : β → Bool) :
    (l.filterMap (fun x => if q x then some (f x) else none)).countP p
      = l.countP (fun x => decide (q x) && p (f x)) := by
  induction l with
  | nil => simp
  | cons x xs ih =>
    by_cases hq : q x
    · rw [List.filterMap_cons, if_pos hq]
      by_cases hp : p (f x)
      · rw [List.countP_cons_of_pos _ _ hp,
          List.countP_cons_of_pos _ _ (by simp [hq, hp]), ih]
      · rw [List.countP_cons_of_neg _ _ hp,
          List.countP_cons_of_neg _ _ (by simp [hq, hp]), ih]
    · rw [List.filterMap_cons, if_neg hq,
        List.countP_cons_of_neg _ _ (by simp [hq]), ih]

theorem mem_filterMap_if {α β : Type} (l : List α) (q : α → Prop)
    [DecidablePred q] (f : α → β) (y : β) :
    y ∈ l.filterMap (fun x => if q x then some (f x) else none)
      ↔ ∃ x ∈ l, q x ∧ f x = y := by
  rw [List.mem_filterMap]
  constructor
  · rintro ⟨x, hx, hfx⟩
    by_cases hq : q x
    · rw [if_pos hq] at hfx
      exact ⟨x, hx, hq, by simpa using hfx⟩
    · rw [if_neg hq] at hfx
      simp at hfx
  · rintro ⟨x, hx, hq, hfx⟩
    exact ⟨x, hx, by rw [if_pos hq, hfx]⟩

theorem countP_nodup_indicator {l : List String} {n : String} (hnd : l.Nodup)
    (hn : n ∈ l) (q : String → Bool) :
    l.countP (fun x => q x && (x == n)) = if q n then 1 else 0 := by
  induction l with
  | nil => simp at hn
  | cons x xs ih =>
    rw [List.nodup_cons] at hnd
    rcases List.mem_cons.mp hn with h | h
    · subst h
      have hzero : xs.countP (fun y => q y && (y == n)) = 0 := by
        rw [List.countP_eq_zero]
        intro a ha
        simp only [Bool.and_eq_true, beq_iff_eq, not_and]
        intro _ he
        exact absurd (he ▸ ha) hnd.1
      by_cases hq : q n
      · rw [List.countP_cons_of_pos _ _ (by simp [hq]), hzero, if_pos hq]
      · rw [List.countP_cons_of_neg _ _ (by simp [hq]), hzero, if_neg hq]
    · have hxn : x ≠ n := by
        intro he
        exact hnd.1 (he ▸ h)
      rw [List.countP_cons_of_neg _ _ (by simp [hxn]), ih hnd.2 h]

theorem sum_map_indicator_eq_count (l : List Nat) (y : Nat) :
    (l.map (fun x => if y = x then 1 else 0)).sum = l.count y := by
  induction l with
  | nil => simp
  | cons x xs ih =>
    by_cases h : y = x
    · subst h
      rw [List.map_cons, if_pos rfl, List.sum_cons, ih, List.count_cons_self]
      omega
    · rw [List.map_cons, if_neg h, List.sum_cons, ih, List.count_cons_of_ne h]
      omega

theorem foldl_assignGroup_persist (dag : DAG) :
    ∀ (l : List String) (m : PyDict String Nat) (k : String) (v : Nat),
      k ∉ l → dget? m k = some v →
      dget? (l.foldl (assignGroup dag) m) k = some v := by
  intro l
  induction l with
  | nil => intro m k v _ h; exact h
  | cons n tl ih =>
    intro m k v hk h
    rw [List.foldl_cons]
    refine ih (assignGroup dag m n) k v (fun h2 => hk (by simp [h2])) ?_
    unfold assignGroup
    rw [dget?_dset_ne _ _ (fun he => hk (by simp [he]))]
    exact h

theorem mem_dkeys_foldl_assignGroup (dag : DAG) :
    ∀ (l : List String) (m : PyDict String Nat) (k : String),
      k ∈ dkeys (l.foldl (assignGroup dag) m) ↔ k ∈ dkeys m ∨ k ∈ l := by
  intro l
  induction l with
  | nil => intro m k; simp
  | cons n tl ih =>
    intro m k
    rw [List.foldl_cons, ih]
    unfold assignGroup
    rw [mem_dkeys_dset]
    simp
    tauto

theorem computeGroups_fix (dag : DAG) :
    ∀ (l : List String) (m : PyDict String Nat),
      l.Nodup → (∀ x ∈ l, x ∉ dkeys m) →
      (∀ j (hj : j < l.length),
        ∀ d ∈ nodeDeps dag (l.get ⟨j, hj⟩), d ∈ dkeys m ++ l.take j) →
      ∀ j (hj : j < l.length),
        dget? (l.foldl (assignGroup dag) m) (l.get ⟨j, hj⟩)
          = some (groupVal dag (l.foldl (assignGroup dag) m) (l.get ⟨j, hj⟩)) := by
  intro l
  induction l with
  | nil => intro m _ _ _ j hj; simp at hj
  | cons n tl ih =>
    intro m hnd hfresh hclosed j hj
    rw [List.nodup_cons] at hnd
    have hfreshn : n ∉ dkeys m := hfresh n (by simp)
    have hkeys1 : dkeys (assignGroup dag m n) = dkeys m ++ [n] := by
      unfold assignGroup
      exact dkeys_dset_not_mem m _ hfreshn
    cases j with
    | zero =>
      have hget0 : (n :: tl).get ⟨0, hj⟩ = n := rfl
      rw [hget0, List.foldl_cons]
      have hdep0 : ∀ d ∈ nodeDeps dag n, d ∈ dkeys m := by
        intro d hd
        have := hclosed 0 (by simp) d (by simpa using hd)
        simpa using this
      have hassigned : dget? (assignGroup dag m n) n = some (groupVal dag m n) := by
        unfold assignGroup
        exact dget?_dset_self ..
      have hfinal : dget? (tl.foldl (assignGroup dag) (assignGroup dag m n)) n
          = some (groupVal dag m n) :=
        foldl_assignGroup_persist dag tl _ n _ hnd.1 hassigned
      rw [hfinal]
      congr 1
      unfold groupVal
      by_cases hdeps : nodeDeps dag n = []
      · rw [if_pos hdeps, if_pos hdeps]
      · rw [if_neg hdeps, if_neg hdeps]
        congr 1
        congr 1
        apply List.map_congr_left
        intro d hd
        have hdm : d ∈ dkeys m := hdep0 d hd
        rw [mem_dkeys_iff_dget?] at hdm
        cases hg : dget? m d with
        | none => rw [hg] at hdm; simp at hdm
        | some vd =>
          have h1 : dget? (assignGroup dag m n) d = some vd := by
            unfold assignGroup
            rw [dget?_dset_ne _ _ (fun he => hfreshn (by
              rw [← he]
              rw [mem_dkeys_iff_dget?, hg]
              rfl))]
            exact hg
          have h2 : dget? (tl.foldl (assignGroup dag) (assignGroup dag m n)) d
              = some vd := by
            refine foldl_assignGroup_persist dag tl _ d vd ?_ h1
            intro hdt
            exact hfresh d (by simp [hdt]) (by rw [mem_dkeys_iff_dget?, hg]; rfl)
          rw [dgetD, dgetD, hg, h2]
    | succ j2 =>
      have hj2 : j2 < tl.length := by simpa using hj
      have hget : (n :: tl).get ⟨j2 + 1, hj⟩ = tl.get ⟨j2, hj2⟩ := rfl
      rw [hget, List.foldl_cons]
      refine ih (assignGroup dag m n) hnd.2 ?_ ?_ j2 hj2
      · intro x hx
        rw [hkeys1]
        simp only [List.mem_append, List.mem_singleton]
        push_neg
        exact ⟨hfresh x (by simp [hx]), fun he => hnd.1 (he ▸ hx)⟩
      · intro j3 hj3 d hd
        have := hclosed (j3 + 1) (by simpa using hj3) d
          (by simpa using hd)
        rw [hkeys1]
        rw [List.take_succ_cons] at this
        simp only [List.mem_append, List.mem_singleton, List.mem_cons] at this ⊢
        tauto

/-! ### Extraction of parallel groups -/

theorem extract_parallel_groups_eq (dag : DAG) (out : List String) :
    extract_parallel_groups dag out
      = (List.insertionSort (· ≤ ·)
          ((out.map (fun n => dgetD (computeGroups dag out) n 0)).dedup)).map
        (fun gk =>
          { group := gk
            agents := out.filterMap (fun n =>
              if dgetD (computeGroups dag out) n 0 = gk
              then some ⟨n, nodeConfig dag n⟩ else none) }) := rfl

theorem agents_any_node (dag : DAG) (out : List String) {n : String}
    (hn : n ∈ out) (gk : Nat) :
    ((out.filterMap (fun x =>
        if dgetD (computeGroups dag out) x 0 = gk
        then some (⟨x, nodeConfig dag x⟩ : AgentPlanEntry) else none)).any
      (fun a => a.node_id == n)) = true
      ↔ dgetD (computeGroups dag out) n 0 = gk := by
  rw [List.any_eq_true]
  constructor
  · rintro ⟨a, ha, hpa⟩
    obtain ⟨x, hx, hqx, hfx⟩ := (mem_filterMap_if out _ _ a).mp ha
    have hxn : x = n := by
      have h2 : a.node_id = n := by simpa using hpa
      rw [← hfx] at h2
      exact h2
    rw [← hxn]
    exact hqx
  · intro hv
    exact ⟨⟨n, nodeConfig dag n⟩,
      (mem_filterMap_if out _ _ _).mpr ⟨n, hn, hv, rfl⟩, by simp⟩

theorem agents_countP_node (dag : DAG) (out : List String) (hnd : out.Nodup)
    {n : String} (hn : n ∈ out) (gk : Nat) :
    ((out.filterMap (fun x =>
        if dgetD (computeGroups dag out) x 0 = gk
        then some (⟨x, nodeConfig dag x⟩ : AgentPlanEntry) else none)).countP
      (fun a => a.node_id == n))
      = if dgetD (computeGroups dag out) n 0 = gk then 1 else 0 := by
  rw [countP_filterMap_if]
  have hcongr : out.countP (fun x =>
      decide (dgetD (computeGroups dag out) x 0 = gk)
        && ((⟨x, nodeConfig dag x⟩ : AgentPlanEntry).node_id == n))
      = out.countP (fun x =>
        decide (dgetD (computeGroups dag out) x 0 = gk) && (x == n)) := by
    apply List.countP_congr
    intro x _
    rfl
  rw [hcongr, countP_nodup_indicator hnd hn]
  by_cases hv : dgetD (computeGroups dag out) n 0 = gk <;> simp [hv]

theorem groupsIndexOf_extract (dag : DAG) (out : List String)
    (hnd : out.Nodup) {n : String} (hn : n ∈ out) :
    groupsIndexOf (extract_parallel_groups dag out) n
      = dgetD (computeGroups dag out) n 0 := by
  rw [extract_parallel_groups_eq]
  have hmem : dgetD (computeGroups dag out) n 0
      ∈ List.insertionSort (· ≤ ·)
        ((out.map (fun x => dgetD (computeGroups dag out) x 0)).dedup) := by
    rw [(List.perm_insertionSort _ _).mem_iff, List.mem_dedup]
    exact List.mem_map_of_mem _ hn
  generalize List.insertionSort (· ≤ ·)
    ((out.map (fun x => dgetD (computeGroups dag out) x 0)).dedup) = ks at hmem ⊢
  induction ks with
  | nil => simp at hmem
  | cons k kr ih =>
    rw [List.map_cons]
    unfold groupsIndexOf
    simp only [List.find?_cons]
    by_cases hk : dgetD (computeGroups dag out) n 0 = k
    · rw [(agents_any_node dag out hn k).mpr hk]
      simpa using hk.symm
    · have hcond : ((out.filterMap (fun x =>
          if dgetD (computeGroups dag out) x 0 = k
          then some (⟨x, nodeConfig dag x⟩ : AgentPlanEntry) else none)).any
        (fun a => a.node_id == n)) = false := by
        rw [Bool.eq_false_iff]
        intro hc
        exact hk ((agents_any_node dag out hn k).mp hc)
      rw [hcond]
      have hmem2 : dgetD (computeGroups dag out) n 0 ∈ kr := by
        rcases List.mem_cons.mp hmem with h | h
        · exact absurd h hk
        · exact h
      exact ih hmem2

theorem topo_run (g : GraphData) :
    ∃ indF, KahnInv (parse_graph g) indF [] (topological_sort (parse_graph g)) ∧
    (∀ i j (hi : i < (topological_sort (parse_graph g)).length)
        (hj : j < (topological_sort (parse_graph g)).length), i < j →
      nodeDeps (parse_graph g) ((topological_sort (parse_graph g)).get ⟨j, hj⟩)
        ⊆ (topological_sort (parse_graph g)).take i →
      idLeP ((topological_sort (parse_graph g)).get ⟨i, hi⟩)
          ((topological_sort (parse_graph g)).get ⟨j, hj⟩) ∧
        (topological_sort (parse_graph g)).get ⟨i, hi⟩
          ≠ (topological_sort (parse_graph g)).get ⟨j, hj⟩) := by
  obtain ⟨indF, outF, hrun, invF, tb⟩ := kahn_full_run g true
  have htopo : topological_sort (parse_graph g) = outF := by
    unfold topological_sort
    rw [hrun]
  rw [htopo]
  exact ⟨indF, invF, fun i j hi hj hij hd => tb rfl i j hi hj hij hd⟩


theorem count_map_eq_countP {α β : Type} [DecidableEq β] (l : List α)
    (f : α → β) (b : β) :
    (l.map f).count b = l.countP (fun x => decide (f x = b)) := by
  induction l with
  | nil => simp
  | cons x xs ih =>
    rw [List.map_cons]
    by_cases h : f x = b
    · rw [h, List.count_cons_self,
        List.countP_cons_of_pos _ _ (by simpa using h), ih]
    · rw [List.count_cons_of_ne (fun he => h he.symm),
        List.countP_cons_of_neg _ _ (by simpa using h), ih]

theorem sum_countP_extract (dag : DAG) (out : List String) (hnd : out.Nodup)
    {n : String} (hn : n ∈ out) :
    ((extract_parallel_groups dag out).map (fun gr =>
      gr.agents.countP (fun a => a.node_id == n))).sum = 1 := by
  rw [extract_parallel_groups_eq, List.map_map]
  have h1 : (List.insertionSort (· ≤ ·)
        ((out.map (fun x => dgetD (computeGroups dag out) x 0)).dedup)).map
        ((fun gr => gr.agents.countP (fun a => a.node_id == n)) ∘ (fun gk =>
          ({ group := gk
             agents := out.filterMap (fun x =>
               if dgetD (computeGroups dag out) x 0 = gk
               then some ⟨x, nodeConfig dag x⟩ else none) } : ParallelGroup)))
      = (List.insertionSort (· ≤ ·)
        ((out.map (fun x => dgetD (computeGroups dag out) x 0)).dedup)).map
        (fun gk => if dgetD (computeGroups dag out) n 0 = gk then 1 else 0) :=
    List.map_congr_left (fun gk _ => agents_countP_node dag out hnd hn gk)
  rw [h1, sum_map_indicator_eq_count]
  have hperm := List.perm_insertionSort (· ≤ ·)
    ((out.map (fun x => dgetD (computeGroups dag out) x 0)).dedup)
  exact List.count_eq_one_of_mem (hperm.nodup_iff.mpr (List.nodup_dedup _))
    (hperm.mem_iff.mpr (List.mem_dedup.mpr (List.mem_map_of_mem _ hn)))

theorem sum_lengths_extract (dag : DAG) (out : List String) :
    ((extract_parallel_groups dag out).map (fun gr =>
      gr.agents.length)).sum = out.length := by
  rw [extract_parallel_groups_eq, List.map_map]
  have h1 : (List.insertionSort (· ≤ ·)
        ((out.map (fun x => dgetD (computeGroups dag out) x 0)).dedup)).map
        ((fun gr => gr.agents.length) ∘ (fun gk =>
          ({ group := gk
             agents := out.filterMap (fun x =>
               if dgetD (computeGroups dag out) x 0 = gk
               then some ⟨x, nodeConfig dag x⟩ else none) } : ParallelGroup)))
      = (List.insertionSort (· ≤ ·)
        ((out.map (fun x => dgetD (computeGroups dag out) x 0)).dedup)).map
        (fun gk =>
          (out.map (fun x => dgetD (computeGroups dag out) x 0)).count gk) :=
    List.map_congr_left (fun gk _ => by
      show (out.filterMap (fun x =>
          if dgetD (computeGroups dag out) x 0 = gk
          then some (⟨x, nodeConfig dag x⟩ : AgentPlanEntry) else none)).length
        = (out.map (fun x => dgetD (computeGroups dag out) x 0)).count gk
      rw [length_filterMap_if]
      exact (count_map_eq_countP out _ gk).symm)
  rw [h1]
  have hperm := List.perm_insertionSort (· ≤ ·)
    ((out.map (fun x => dgetD (computeGroups dag out) x 0)).dedup)
  rw [(hperm.map _).sum_eq, List.sum_map_count_dedup_eq_length,
    List.length_map]

/-! ### Claim C1 -/

/-- C1: for every non-empty acyclic graph with distinct node ids,
`create_execution_plan` succeeds; every node occurs exactly once across
the parallel groups; a node's group index is 0 when it has no in-graph
dependencies and one more than the maximum group of its dependencies
otherwise; every in-graph edge goes from a strictly smaller group index
to a strictly larger one; `total_agents` is the number of nodes,
`estimated_rounds` the number of groups, and `max_parallelism` the size
of the largest group (a bound that some group attains). -/
theorem C1_plan_correct (g : GraphData)
    (hne : g.nodes ≠ []) (hnd : (nodeIds g).Nodup) (hnc : ¬ HasCycle g) :
    ∃ p, create_execution_plan g = Except.ok p ∧
      (∀ n ∈ nodeIds g,
        (p.groups.map (fun gr =>
          gr.agents.countP (fun a => a.node_id == n))).sum = 1) ∧
      (∀ n ∈ nodeIds g,
        (gdeps g n = [] → planGroupOf p n = 0) ∧
        (gdeps g n ≠ [] →
          planGroupOf p n
            = ((gdeps g n).map (planGroupOf p)).foldl max 0 + 1)) ∧
      (∀ e ∈ g.edges, e.source ∈ nodeIds g → e.target ∈ nodeIds g →
        planGroupOf p e.source < planGroupOf p e.target) ∧
      p.total_agents = g.nodes.length ∧
      p.estimated_rounds = p.groups.length ∧
      (∀ gr ∈ p.groups, gr.agents.length ≤ p.max_parallelism) ∧
      (∃ gr ∈ p.groups, gr.agents.length = p.max_parallelism) := by
  obtain ⟨indF, invF, -⟩ := topo_run g
  have hkeys_eq : dkeys (parse_graph g) = nodeIds g := by
    rw [parse_graph_keys, dkeys_parseNodes_of_nodup g hnd]
  have hmem_out : ∀ k,
      k ∈ topological_sort (parse_graph g) ↔ k ∈ nodeIds g := by
    intro k
    constructor
    · intro hk
      rw [← hkeys_eq]
      exact invF.oSub hk
    · intro hk
      exact keys_sub_out_of_no_cycle g invF hnc k (by rw [hkeys_eq]; exact hk)
  have houtnodup : (topological_sort (parse_graph g)).Nodup := invF.oNodup
  have hfix := computeGroups_fix (parse_graph g)
    (topological_sort (parse_graph g)) [] houtnodup
    (by intro x _; simp [dkeys])
    (by
      intro j hj d hd
      have h5 := invF.outClosed j hj hd
      simpa [dkeys] using h5)
  have hval_eq : ∀ n ∈ topological_sort (parse_graph g),
      dgetD (computeGroups (parse_graph g)
        (topological_sort (parse_graph g))) n 0
        = groupVal (parse_graph g)
            (computeGroups (parse_graph g)
              (topological_sort (parse_graph g))) n := by
    intro n hn
    obtain ⟨j, hj, hget⟩ := List.mem_iff_getElem.mp hn
    have h2 := hfix j hj
    have hgetF : (topological_sort (parse_graph g)).get ⟨j, hj⟩ = n := hget
    rw [hgetF] at h2
    show dgetD ((topological_sort (parse_graph g)).foldl
        (assignGroup (parse_graph g)) []) n 0 = _
    unfold dgetD
    rw [h2]
    rfl
  have hok : detect_cycles (parse_graph g) = Except.ok () :=
    (detect_cycles_spec g).1.mpr hnc
  have hplan : create_execution_plan g = Except.ok
      { groups := extract_parallel_groups (parse_graph g)
          (topological_sort (parse_graph g))
        total_agents := ((extract_parallel_groups (parse_graph g)
          (topological_sort (parse_graph g))).map
            (fun gr => gr.agents.length)).sum
        max_parallelism :=
          if (extract_parallel_groups (parse_graph g)
              (topological_sort (parse_graph g))).isEmpty then 0
          else ((extract_parallel_groups (parse_graph g)
            (topological_sort (parse_graph g))).map
              (fun gr => gr.agents.length)).foldl max 0
        estimated_rounds := (extract_parallel_groups (parse_graph g)
          (topological_sort (parse_graph g))).length } := by
    unfold create_execution_plan
    rw [if_neg (by simp [hne])]
    simp only [hok]
  have hpg : ∀ n ∈ topological_sort (parse_graph g),
      groupsIndexOf (extract_parallel_groups (parse_graph g)
        (topological_sort (parse_graph g))) n
      = dgetD (computeGroups (parse_graph g)
          (topological_sort (parse_graph g))) n 0 := by
    intro n hn
    exact groupsIndexOf_extract (parse_graph g) _ houtnodup hn
  have hform : ∀ n ∈ nodeIds g,
      (gdeps g n = [] → groupsIndexOf (extract_parallel_groups (parse_graph g)
        (topological_sort (parse_graph g))) n = 0) ∧
      (gdeps g n ≠ [] →
        groupsIndexOf (extract_parallel_groups (parse_graph g)
          (topological_sort (parse_graph g))) n
        = ((gdeps g n).map
            (groupsIndexOf (extract_parallel_groups (parse_graph g)
              (topological_sort (parse_graph g))))).foldl max 0 + 1) := by
    intro n hn
    have hnout : n ∈ topological_sort (parse_graph g) := (hmem_out n).mpr hn
    have hdeps_eq : nodeDeps (parse_graph g) n = gdeps g n :=
      nodeDeps_parse_graph g n
    constructor
    · intro hnil
      rw [hpg n hnout, hval_eq n hnout]
      unfold groupVal
      rw [if_pos (by rw [hdeps_eq]; exact hnil)]
    · intro hnnil
      rw [hpg n hnout, hval_eq n hnout]
      unfold groupVal
      rw [if_neg (by rw [hdeps_eq]; exact hnnil)]
      congr 1
      rw [hdeps_eq]
      congr 1
      apply List.map_congr_left
      intro d hd
      have hdout : d ∈ topological_sort (parse_graph g) :=
        (hmem_out d).mpr (gdeps_sub g n hd)
      exact (hpg d hdout).symm
  refine ⟨_, hplan, ?_, ?_, ?_, ?_, rfl, ?_, ?_⟩
  · -- each node occurs exactly once across the groups
    intro n hn
    have hnout : n ∈ topological_sort (parse_graph g) := (hmem_out n).mpr hn
    show ((extract_parallel_groups (parse_graph g)
      (topological_sort (parse_graph g))).map
        (fun gr => gr.agents.countP (fun a => a.node_id == n))).sum = 1
    exact sum_countP_extract (parse_graph g) _ houtnodup hnout
  · -- the group-index formula
    intro n hn
    exact hform n hn
  · -- edges increase the group index
    intro e he hs ht
    have hmemdep : e.source ∈ gdeps g e.target := by
      unfold gdeps liveEdges
      exact List.mem_map.mpr ⟨e, List.mem_filter.mpr
        ⟨List.mem_filter.mpr ⟨he, by simp [hs, ht]⟩, by simp⟩, rfl⟩
    have h2 := (hform e.target ht).2 (by
      intro hc
      rw [hc] at hmemdep
      simp at hmemdep)
    show groupsIndexOf (extract_parallel_groups (parse_graph g)
        (topological_sort (parse_graph g))) e.source
      < groupsIndexOf (extract_parallel_groups (parse_graph g)
        (topological_sort (parse_graph g))) e.target
    rw [h2]
    have hle := le_foldl_max ((gdeps g e.target).map
      (groupsIndexOf (extract_parallel_groups (parse_graph g)
        (topological_sort (parse_graph g))))) 0 _
      (List.mem_map_of_mem _ hmemdep)
    omega
  · -- total agents
    show ((extract_parallel_groups (parse_graph g)
      (topological_sort (parse_graph g))).map
        (fun gr => gr.agents.length)).sum = g.nodes.length
    rw [sum_lengths_extract]
    have h1 := (invF.oNodup.subperm invF.oSub).length_le
    have h2 := ((dkeys_parse_graph_nodup g).subperm
      (fun k hk => keys_sub_out_of_no_cycle g invF hnc k hk)).length_le
    have h3 : (dkeys (parse_graph g)).length = (nodeIds g).length := by
      rw [hkeys_eq]
    have h4 : (nodeIds g).length = g.nodes.length := List.length_map _ _
    omega
  · -- every group is bounded by max_parallelism
    intro gr hgr
    have hgr2 : gr ∈ extract_parallel_groups (parse_graph g)
        (topological_sort (parse_graph g)) := hgr
    have hgsne : ¬ (extract_parallel_groups (parse_graph g)
        (topological_sort (parse_graph g))).isEmpty = true := by
      intro hempty
      rw [List.isEmpty_iff] at hempty
      rw [hempty] at hgr2
      simp at hgr2
    show gr.agents.length ≤
      if (extract_parallel_groups (parse_graph g)
          (topological_sort (parse_graph g))).isEmpty then 0
      else ((extract_parallel_groups (parse_graph g)
        (topological_sort (parse_graph g))).map
          (fun gr => gr.agents.length)).foldl max 0
    rw [if_neg hgsne]
    exact le_foldl_max _ 0 _ (List.mem_map_of_mem _ hgr2)
  · -- max_parallelism is attained by some group
    have hgsne : extract_parallel_groups (parse_graph g)
        (topological_sort (parse_graph g)) ≠ [] := by
      obtain ⟨n0, hn0⟩ := List.exists_mem_of_ne_nil g.nodes hne
      have hn0out : n0.id ∈ topological_sort (parse_graph g) :=
        (hmem_out _).mpr (List.mem_map_of_mem _ hn0)
      rw [extract_parallel_groups_eq]
      intro hempty
      rw [List.map_eq_nil_iff] at hempty
      have hmem := (List.perm_insertionSort (· ≤ ·)
        (((topological_sort (parse_graph g)).map (fun x =>
          dgetD (computeGroups (parse_graph g)
            (topological_sort (parse_graph g))) x 0)).dedup)).mem_iff.mpr
        (List.mem_dedup.mpr (List.mem_map_of_mem _ hn0out))
      rw [hempty] at hmem
      simp at hmem
    show ∃ gr ∈ extract_parallel_groups (parse_graph g)
        (topological_sort (parse_graph g)), gr.agents.length =
      if (extract_parallel_groups (parse_graph g)
          (topological_sort (parse_graph g))).isEmpty then 0
      else ((extract_parallel_groups (parse_graph g)
        (topological_sort (parse_graph g))).map
          (fun gr => gr.agents.length)).foldl max 0
    rw [if_neg (by simpa [List.isEmpty_iff] using hgsne)]
    rcases foldl_max_mem ((extract_parallel_groups (parse_graph g)
      (topological_sort (parse_graph g))).map
        (fun gr => gr.agents.length)) 0 with h | h
    · obtain ⟨gr0, hgr0⟩ := List.exists_mem_of_ne_nil _ hgsne
      refine ⟨gr0, hgr0, ?_⟩
      have hb := le_foldl_max ((extract_parallel_groups (parse_graph g)
        (topological_sort (parse_graph g))).map
          (fun gr => gr.agents.length)) 0
        _ (List.mem_map_of_mem _ hgr0)
      omega
    · obtain ⟨gr, hgr, hlen⟩ := List.mem_map.mp h
      exact ⟨gr, hgr, hlen⟩

/-! ### Claim C6 -/

/-- C6: `create_execution_plan` is deterministic — equal input graphs give
equal plans — and the topological order breaks ties ascending by node id:
whenever the node emitted at position `j` already had all of its
dependencies emitted by the time position `i < j` was emitted (so both
nodes had in-degree zero simultaneously), the node at `i` is
lexicographically at most (and distinct from) the node at `j`. -/
theorem C6_deterministic_tiebreak :
    (∀ g1 g2 : GraphData, g1 = g2 →
      create_execution_plan g1 = create_execution_plan g2) ∧
    (∀ g : GraphData,
      ∀ i j (hi : i < (topological_sort (parse_graph g)).length)
        (hj : j < (topological_sort (parse_graph g)).length), i < j →
      nodeDeps (parse_graph g)
          ((topological_sort (parse_graph g)).get ⟨j, hj⟩)
        ⊆ (topological_sort (parse_graph g)).take i →
      idLeP ((topological_sort (parse_graph g)).get ⟨i, hi⟩)
          ((topological_sort (parse_graph g)).get ⟨j, hj⟩) ∧
        (topological_sort (parse_graph g)).get ⟨i, hi⟩
          ≠ (topological_sort (parse_graph g)).get ⟨j, hj⟩) := by
  constructor
  · intro g1 g2 h
    rw [h]
  · intro g i j hi hj hij hd
    obtain ⟨indF, invF, tb⟩ := topo_run g
    exact tb i j hi hj hij hd

theorem C6_deterministic_tiebreak_witness :
    create_execution_plan gTie = create_execution_plan gTie ∧
    idLeP ((topological_sort (parse_graph gTie)).get ⟨0, by decide⟩)
      ((topological_sort (parse_graph gTie)).get ⟨1, by decide⟩) ∧
    (topological_sort (parse_graph gTie)).get ⟨0, by decide⟩
      ≠ (topological_sort (parse_graph gTie)).get ⟨1, by decide⟩ := by
  have hsub : nodeDeps (parse_graph gTie)
      ((topological_sort (parse_graph gTie)).get ⟨1, by decide⟩)
      ⊆ (topological_sort (parse_graph gTie)).take 0 := by
    show nodeDeps (parse_graph gTie) "b"
      ⊆ (topological_sort (parse_graph gTie)).take 0
    rw [show nodeDeps (parse_graph gTie) "b" = [] from by decide]
    exact List.nil_subset _
  have h2 := C6_deterministic_tiebreak.2 gTie 0 1 (by decide) (by decide)
    (by decide) hsub
  exact ⟨C6_deterministic_tiebreak.1 gTie gTie rfl, h2.1, h2.2⟩

theorem C1_plan_correct_witness :
    ∃ p, create_execution_plan gDia = Except.ok p ∧
      (∀ n ∈ nodeIds gDia,
        (p.groups.map (fun gr =>
          gr.agents.countP (fun a => a.node_id == n))).sum = 1) ∧
      (∀ n ∈ nodeIds gDia,
        (gdeps gDia n = [] → planGroupOf p n = 0) ∧
        (gdeps gDia n ≠ [] →
          planGroupOf p n
            = ((gdeps gDia n).map (planGroupOf p)).foldl max 0 + 1)) ∧
      (∀ e ∈ gDia.edges, e.source ∈ nodeIds gDia → e.target ∈ nodeIds gDia →
        planGroupOf p e.source < planGroupOf p e.target) ∧
      p.total_agents = gDia.nodes.length ∧
      p.estimated_rounds = p.groups.length ∧
      (∀ gr ∈ p.groups, gr.agents.length ≤ p.max_parallelism) ∧
      (∃ gr ∈ p.groups, gr.agents.length = p.max_parallelism) :=
  C1_plan_correct gDia (by decide) (by decide)
    ((detect_cycles_spec gDia).1.mp rfl)

/-! ### Claim C7 -/

/-- C7, amended: for every pricing table, plan and graph,
`estimate_workflow_cost` computes per planned agent the claimed token
counts (with the code's integer truncation of `dep_max * 0.6`) and the
claimed per-agent cost rounded to six decimals, and its total is the sum
of the per-agent costs, itself rounded to six decimals. -/
theorem C7_cost_estimate (pd : PricingData) (plan : ExecutionPlan)
    (g : GraphData) :
    (estimate_workflow_cost pd plan g).agents
      = (planAgents plan).map (agentEstimate pd g) ∧
    (estimate_workflow_cost pd plan g).total
      = round6 (((planAgents plan).map (specAgentCostAmended pd g)).sum) ∧
    ∀ a ∈ planAgents plan,
      (agentEstimate pd g a).estimated_prompt_tokens
          = specSystemTokens (dgetD (budgetConfigs g) a.node_id a.config)
            + specInputTokensAmended
                ((dgetD (depsOf g) a.node_id []).map
                  (fun d => dgetD (budgetConfigs g) d {})) ∧
      (agentEstimate pd g a).estimated_completion_tokens
          = (dgetD (budgetConfigs g) a.node_id a.config).max_tokens.getD
              1000 ∧
      (agentEstimate pd g a).estimated_cost = specAgentCostAmended pd g a := by
  refine ⟨rfl, ?_, ?_⟩
  · show round6 ((((planAgents plan).map (agentEstimate pd g)).map
        AgentEstimate.estimated_cost).sum) = _
    rw [List.map_map]
    congr 1
  · intro a _
    exact ⟨rfl, rfl, rfl⟩

theorem C7_cost_estimate_witness :
    aBud ∈ planAgents pBud ∧
    (estimate_workflow_cost pdBud pBud gBud).total
      = round6 (((planAgents pBud).map (specAgentCostAmended pdBud gBud)).sum)
      ∧
    (agentEstimate pdBud gBud aBud).estimated_cost
      = specAgentCostAmended pdBud gBud aBud := by
  have hmem : aBud ∈ planAgents pBud := by decide
  have h := C7_cost_estimate pdBud pBud gBud
  exact ⟨hmem, h.2.1, (h.2.2 aBud hmem).2.2⟩

theorem C7_cost_estimate_counterexample :
    (estimate_workflow_cost pdBud pBud gBud).total
      ≠ specTotal pdBud pBud gBud := by
  have h1 : (estimate_workflow_cost pdBud pBud gBud).total = 1/50000 := by
    show round6 ((((planAgents pBud).map (agentEstimate pdBud gBud)).map
        AgentEstimate.estimated_cost).sum) = 1/50000
    have ha : (planAgents pBud).map (agentEstimate pdBud gBud)
        = [agentEstimate pdBud gBud aBud] := rfl
    rw [ha]
    have hc : (agentEstimate pdBud gBud aBud).estimated_cost
        = round6 (((201:ℚ)/1000) * (1/10000) + ((1000:ℚ)/1000) * 0) := rfl
    rw [List.map_cons, List.map_nil, hc, List.sum_cons, List.sum_nil]
    have e1 : round6 (((201:ℚ)/1000) * (1/10000) + ((1000:ℚ)/1000) * 0)
        = 1/50000 := by
      unfold round6
      rw [round_eq]
      rw [show (((201:ℚ)/1000) * (1/10000) + ((1000:ℚ)/1000) * 0) * 1000000
          + 1/2 = 103/5 from by norm_num]
      rw [show ⌊(103:ℚ)/5⌋ = 20 from by norm_num]
      norm_num
    rw [e1]
    unfold round6
    rw [round_eq]
    rw [show ((1:ℚ)/50000 + 0) * 1000000 + 1/2 = 41/2 from by norm_num]
    rw [show ⌊(41:ℚ)/2⌋ = 20 from by norm_num]
    norm_num
  have h2 : specTotal pdBud pBud gBud = 201/10000000 := by
    show ((planAgents pBud).map (specAgentCost pdBud gBud)).sum = _
    have ha : (planAgents pBud).map (specAgentCost pdBud gBud)
        = [specAgentCost pdBud gBud aBud] := rfl
    rw [ha, List.sum_cons, List.sum_nil]
    show (((specSystemTokens {} : ℚ) + specInputTokensQ []) / 1000)
        * (1/10000) + ((1000 : ℚ) / 1000) * 0 + 0 = _
    norm_num [specSystemTokens, specInputTokensQ]
  rw [h1, h2]
  norm_num

/-! ### Claim C8: budget enforcer -/

theorem exceeded_cond_iff (b : BudgetEnforcer) :
    (b.max_cost.any (fun mc => decide (mc ≤ b.used_cost))
      || b.max_tokens.any (fun mt => decide (mt ≤ b.used_tokens))) = true
    ↔ capReached b := by
  unfold capReached
  cases hmc : b.max_cost <;> cases hmt : b.max_tokens <;>
    simp [hmc, hmt, Option.any]

theorem warning_cond_iff (b : BudgetEnforcer) :
    (!b.warned
      && (b.max_cost.any (fun mc => decide (mc * (8/10) ≤ b.used_cost))
        || b.max_tokens.any (fun mt =>
            decide ((mt : ℚ) * (8/10) ≤ (b.used_tokens : ℚ))))) = true
    ↔ b.warned = false ∧ warnReached b := by
  unfold warnReached
  cases hw : b.warned <;> cases hmc : b.max_cost <;>
    cases hmt : b.max_tokens <;> simp [hw, hmc, hmt, Option.any]

theorem check_fst_exceeded_iff (b : BudgetEnforcer) :
    (b.check).1 = "exceeded" ↔ capReached b := by
  unfold BudgetEnforcer.check
  split_ifs with h1 h2
  · show ("exceeded" : String) = "exceeded" ↔ capReached b
    exact iff_of_true rfl ((exceeded_cond_iff b).mp h1)
  · show ("warning" : String) = "exceeded" ↔ capReached b
    exact iff_of_false (by decide)
      (fun hc => h1 ((exceeded_cond_iff b).mpr hc))
  · show ("ok" : String) = "exceeded" ↔ capReached b
    exact iff_of_false (by decide)
      (fun hc => h1 ((exceeded_cond_iff b).mpr hc))

theorem check_fst_warning_iff (b : BudgetEnforcer) :
    (b.check).1 = "warning" ↔
      ¬ capReached b ∧ b.warned = false ∧ warnReached b := by
  unfold BudgetEnforcer.check
  split_ifs with h1 h2
  · show ("exceeded" : String) = "warning" ↔ _
    refine iff_of_false (by decide) ?_
    rintro ⟨hnc, -, -⟩
    exact hnc ((exceeded_cond_iff b).mp h1)
  · show ("warning" : String) = "warning" ↔ _
    refine iff_of_true rfl ?_
    obtain ⟨hw, hwr⟩ := (warning_cond_iff b).mp h2
    exact ⟨fun hc => h1 ((exceeded_cond_iff b).mpr hc), hw, hwr⟩
  · show ("ok" : String) = "warning" ↔ _
    refine iff_of_false (by decide) ?_
    rintro ⟨-, hw, hwr⟩
    exact h2 ((warning_cond_iff b).mpr ⟨hw, hwr⟩)

theorem check_fst_cases (b : BudgetEnforcer) :
    (b.check).1 = "exceeded" ∨ (b.check).1 = "warning" ∨
      (b.check).1 = "ok" := by
  unfold BudgetEnforcer.check
  split_ifs
  · exact Or.inl rfl
  · exact Or.inr (Or.inl rfl)
  · exact Or.inr (Or.inr rfl)

theorem check_fst_ok_iff (b : BudgetEnforcer) :
    (b.check).1 = "ok" ↔
      ¬ capReached b ∧ (b.warned = true ∨ ¬ warnReached b) := by
  constructor
  · intro h
    have hne : ¬ capReached b := by
      intro hc
      have h2 := (check_fst_exceeded_iff b).mpr hc
      rw [h] at h2
      exact absurd (show ("ok" : String) = "exceeded" from h2) (by decide)
    refine ⟨hne, ?_⟩
    by_contra hcon
    push_neg at hcon
    have hw : b.warned = false := by
      cases hwb : b.warned
      · rfl
      · exact absurd hwb hcon.1
    have h2 := (check_fst_warning_iff b).mpr ⟨hne, hw, hcon.2⟩
    rw [h] at h2
    exact absurd (show ("ok" : String) = "warning" from h2) (by decide)
  · rintro ⟨hnc, hor⟩
    rcases check_fst_cases b with hE | hW | hO
    · exact absurd ((check_fst_exceeded_iff b).mp hE) hnc
    · obtain ⟨-, hw, hwr⟩ := (check_fst_warning_iff b).mp hW
      rcases hor with h | h
      · rw [hw] at h
        cases h
      · exact absurd hwr h
    · exact hO

theorem check_snd (b : BudgetEnforcer) :
    (b.check).2 = b ∨ (b.check).2 = { b with warned := true } := by
  unfold BudgetEnforcer.check
  split_ifs
  · exact Or.inl rfl
  · exact Or.inr rfl
  · exact Or.inl rfl

theorem check_warning_snd (b : BudgetEnforcer)
    (h : (b.check).1 = "warning") : (b.check).2.warned = true := by
  unfold BudgetEnforcer.check at h ⊢
  split_ifs at h ⊢
  · exact absurd (show ("exceeded" : String) = "warning" from h) (by decide)
  · rfl
  · exact absurd (show ("ok" : String) = "warning" from h) (by decide)

theorem capReached_check_iff (b : BudgetEnforcer) :
    capReached (b.check).2 ↔ capReached b := by
  rcases check_snd b with h | h
  · rw [h]
  · rw [h]
    exact Iff.rfl

theorem capReached_record (b : BudgetEnforcer) (t : Int) (c : ℚ)
    (ht : 0 ≤ t) (hc : 0 ≤ c) (h : capReached b) :
    capReached (b.record t c) := by
  rcases h with ⟨mc, hmc, hle⟩ | ⟨mt, hmt, hle⟩
  · exact Or.inl ⟨mc, hmc, le_trans hle
      (by show b.used_cost ≤ b.used_cost + c; linarith)⟩
  · exact Or.inr ⟨mt, hmt, le_trans hle
      (by show b.used_tokens ≤ b.used_tokens + t; omega)⟩

theorem runOps_nil (b : BudgetEnforcer) : runOps b [] = (b, []) := rfl

theorem runOps_record (b : BudgetEnforcer) (t : Int) (c : ℚ)
    (rest : List BudgetOp) :
    runOps b (BudgetOp.record t c :: rest) = runOps (b.record t c) rest :=
  rfl

theorem runOps_check (b : BudgetEnforcer) (rest : List BudgetOp) :
    runOps b (BudgetOp.check :: rest)
      = ((runOps (b.check).2 rest).1,
         (b.check).1 :: (runOps (b.check).2 rest).2) := rfl

theorem opsNonneg_tail {op : BudgetOp} {rest : List BudgetOp}
    (h : opsNonneg (op :: rest)) : opsNonneg rest :=
  fun o ho => h o (List.mem_cons_of_mem _ ho)

theorem runOps_sticky (ops : List BudgetOp) :
    ∀ b : BudgetEnforcer, opsNonneg ops → capReached b →
      ∀ r ∈ (runOps b ops).2, r = "exceeded" := by
  induction ops with
  | nil =>
    intro b _ _ r hr
    rw [runOps_nil] at hr
    cases hr
  | cons op rest ih =>
    intro b hops hcap r hr
    cases op with
    | record t c =>
      rw [runOps_record] at hr
      have hnn := hops (BudgetOp.record t c) (List.mem_cons_self _ _)
      exact ih (b.record t c) (opsNonneg_tail hops)
        (capReached_record b t c hnn.1 hnn.2 hcap) r hr
    | check =>
      rw [runOps_check] at hr
      rcases List.mem_cons.mp hr with rfl | hr2
      · exact (check_fst_exceeded_iff b).mpr hcap
      · exact ih (b.check).2 (opsNonneg_tail hops)
          ((capReached_check_iff b).mpr hcap) r hr2

theorem runOps_warning_le (ops : List BudgetOp) :
    ∀ b : BudgetEnforcer,
      (runOps b ops).2.count "warning" ≤ (if b.warned then 0 else 1) := by
  induction ops with
  | nil =>
    intro b
    rw [runOps_nil]
    simp
  | cons op rest ih =>
    intro b
    cases op with
    | record t c =>
      rw [runOps_record]
      exact ih (b.record t c)
    | check =>
      rw [runOps_check]
      by_cases hw : (b.check).1 = "warning"
      · have h2 := (check_fst_warning_iff b).mp hw
        have hsnd : (b.check).2.warned = true := check_warning_snd b hw
        rw [hw, List.count_cons_self]
        have h3 := ih (b.check).2
        rw [hsnd, if_pos rfl] at h3
        rw [h2.2.1, if_neg (show ¬ false = true by decide)]
        omega
      · rw [List.count_cons_of_ne (fun he => hw he.symm)]
        have hm : (b.check).2.warned = b.warned ∨
            (b.check).2.warned = true := by
          rcases check_snd b with h | h <;> rw [h]
          · exact Or.inl rfl
          · exact Or.inr rfl
        have h3 := ih (b.check).2
        rcases hm with h | h
        · rw [h] at h3
          exact h3
        · rw [h, if_pos rfl] at h3
          cases hwb : b.warned
          · rw [if_neg (show ¬ false = true by decide)]
            omega
          · rw [if_pos rfl]
            omega
      
theorem runOps_nocaps (ops : List BudgetOp) :
    ∀ b : BudgetEnforcer, b.max_tokens = none → b.max_cost = none →
      ∀ r ∈ (runOps b ops).2, r = "ok" := by
  induction ops with
  | nil =>
    intro b _ _ r hr
    rw [runOps_nil] at hr
    cases hr
  | cons op rest ih =>
    intro b hmt hmc r hr
    cases op with
    | record t c =>
      rw [runOps_record] at hr
      exact ih (b.record t c) hmt hmc r hr
    | check =>
      rw [runOps_check] at hr
      have hok : (b.check).1 = "ok" := by
        unfold BudgetEnforcer.check
        rw [hmc, hmt]
        simp [Option.any]
      rcases List.mem_cons.mp hr with rfl | hr2
      · exact hok
      · rcases check_snd b with h | h <;> rw [h] at hr2
        · exact ih b hmt hmc r hr2
        · exact ih { b with warned := true } hmt hmc r hr2

/-- C8: per enforcer state, `check` returns `"exceeded"` exactly when
some configured cap is reached or passed, `"warning"` exactly on the
first non-exceeded check at which usage reaches 0.8 of some configured
cap, and `"ok"` otherwise; along any sequence of non-negative `record`s
interleaved with `check`s, once a cap is reached every check returns
`"exceeded"`, `"warning"` appears at most once (never from an
already-warned enforcer), and with no configured cap `has_budget` is
false and every check returns `"ok"`. -/
theorem C8_budget_enforcer (b : BudgetEnforcer) (ops : List BudgetOp)
    (hops : opsNonneg ops) :
    ((b.check).1 = "exceeded" ↔ capReached b) ∧
    ((b.check).1 = "warning" ↔
      ¬ capReached b ∧ b.warned = false ∧ warnReached b) ∧
    ((b.check).1 = "ok" ↔
      ¬ capReached b ∧ (b.warned = true ∨ ¬ warnReached b)) ∧
    (capReached b → ∀ r ∈ (runOps b ops).2, r = "exceeded") ∧
    ((runOps b ops).2.count "warning" ≤ 1) ∧
    (b.warned = true → (runOps b ops).2.count "warning" = 0) ∧
    (b.max_tokens = none → b.max_cost = none →
      b.has_budget = false ∧ ∀ r ∈ (runOps b ops).2, r = "ok") := by
  refine ⟨check_fst_exceeded_iff b, check_fst_warning_iff b,
    check_fst_ok_iff b, runOps_sticky ops b hops, ?_, ?_, ?_⟩
  · have h := runOps_warning_le ops b
    cases hwb : b.warned
    · rw [hwb, if_neg (show ¬ false = true by decide)] at h
      omega
    · rw [hwb, if_pos rfl] at h
      omega
  · intro hwb
    have h := runOps_warning_le ops b
    rw [hwb, if_pos rfl] at h
    omega
  · intro hmt hmc
    refine ⟨?_, runOps_nocaps ops b hmt hmc⟩
    unfold BudgetEnforcer.has_budget
    rw [hmt, hmc]
    rfl

theorem C8_budget_enforcer_witness :
    opsNonneg opsWit ∧
    (((bWit.check).1 = "exceeded" ↔ capReached bWit) ∧
     ((bWit.check).1 = "warning" ↔
       ¬ capReached bWit ∧ bWit.warned = false ∧ warnReached bWit) ∧
     ((bWit.check).1 = "ok" ↔
       ¬ capReached bWit ∧ (bWit.warned = true ∨ ¬ warnReached bWit)) ∧
     (capReached bWit → ∀ r ∈ (runOps bWit opsWit).2, r = "exceeded") ∧
     ((runOps bWit opsWit).2.count "warning" ≤ 1) ∧
     (bWit.warned = true → (runOps bWit opsWit).2.count "warning" = 0) ∧
     (bWit.max_tokens = none → bWit.max_cost = none →
       bWit.has_budget = false ∧
         ∀ r ∈ (runOps bWit opsWit).2, r = "ok")) := by
  have hops : opsNonneg opsWit := by
    intro op hop
    rcases List.mem_cons.mp hop with rfl | hop2
    · exact ⟨by norm_num, by norm_num⟩
    · rcases List.mem_cons.mp hop2 with rfl | hop3
      · trivial
      · cases hop3
  exact ⟨hops, C8_budget_enforcer bWit opsWit hops⟩

/-! ### Claim C9 -/

theorem edgeBlocks_eq_false_iff (completed : PyDict String (String × String))
    (nid : String) (e : GEdge) :
    edgeBlocks completed nid e = false ↔
      (e.target = nid → ∀ c, e.condition = some c → c ≠ "" →
        ∀ out, dget? completed e.source = some out →
          _evaluate_condition (some c) out.1 = true) := by
  unfold edgeBlocks
  cases hc : e.condition with
  | none => simp [hc]
  | some c =>
    cases ho : dget? completed e.source with
    | none => simp [hc, ho]
    | some out =>
      by_cases ht : e.target = nid
      · by_cases hce : c = ""
        · simp [hc, ht, ho, hce]
        · simp [hc, ht, ho, hce]
      · simp [ht]

/-- C9: `_evaluate_condition` returns true exactly when the condition is
absent, the empty string, `"default"` up to case, exactly the output
text, or a substring of the output text; and the executor needs
`should_run` — which passes exactly when every inbound edge carrying a
truthy condition whose source has completed evaluates true against that
source's output text — to launch a node. -/
theorem C9_condition_evaluation :
    (∀ (condition : Option String) (output_text : String),
      _evaluate_condition condition output_text = true ↔
        (condition = none ∨ condition = some "" ∨
          (∃ c, condition = some c ∧ pyLower c = "default") ∨
          condition = some output_text ∨
          (∃ c, condition = some c ∧ c.data <:+: output_text.data))) ∧
    (∀ (edges : List GEdge) (completed : PyDict String (String × String))
        (nid : String),
      shouldRun edges completed nid = true ↔
        ∀ e ∈ edges, e.target = nid →
          ∀ c, e.condition = some c → c ≠ "" →
            ∀ out, dget? completed e.source = some out →
              _evaluate_condition (some c) out.1 = true) := by
  constructor
  · intro condition output_text
    cases condition with
    | none => simp [_evaluate_condition]
    | some c =>
      show (if (c == "" || pyLower c == "default") = true then true
        else if (output_text == c) = true then true
        else if decide (c.data <:+: output_text.data) = true then true
        else false) = true ↔ _
      split_ifs with h1 h2 h3
      · refine iff_of_true rfl ?_
        rcases Bool.or_eq_true_iff.mp h1 with h | h
        · exact Or.inr (Or.inl (by rw [eq_of_beq h]))
        · exact Or.inr (Or.inr (Or.inl ⟨c, rfl, eq_of_beq h⟩))
      · exact iff_of_true rfl
          (Or.inr (Or.inr (Or.inr (Or.inl (by rw [eq_of_beq h2])))))
      · exact iff_of_true rfl
          (Or.inr (Or.inr (Or.inr (Or.inr ⟨c, rfl, of_decide_eq_true h3⟩))))
      · refine iff_of_false (by simp) ?_
        rintro (h | h | ⟨c2, hc2, hl⟩ | h | ⟨c2, hc2, hin⟩)
        · cases h
        · rw [Option.some.injEq] at h
          exact h1 (by simp [h])
        · rw [Option.some.injEq] at hc2
          subst hc2
          exact h1 (by simp [hl])
        · rw [Option.some.injEq] at h
          exact h2 (by simp [h])
        · rw [Option.some.injEq] at hc2
          subst hc2
          exact h3 (by simpa using hin)
  · intro edges completed nid
    unfold shouldRun
    constructor
    · intro h e he ht c hc hcne out hout
      have hall : edges.any (edgeBlocks completed nid) = false := by
        cases hany : edges.any (edgeBlocks completed nid)
        · rfl
        · rw [hany] at h
          cases h
      have hfalse : edgeBlocks completed nid e = false := by
        by_contra hcon
        have hbe : edgeBlocks completed nid e = true := by
          cases hb : edgeBlocks completed nid e
          · exact absurd hb hcon
          · rfl
        have h2 : edges.any (edgeBlocks completed nid) = true :=
          List.any_eq_true.mpr ⟨e, he, hbe⟩
        rw [h2] at hall
        cases hall
      exact ((edgeBlocks_eq_false_iff completed nid e).mp hfalse)
        ht c hc hcne out hout
    · intro h
      have hall : edges.any (edgeBlocks completed nid) = false := by
        by_contra hcon
        have h2 : edges.any (edgeBlocks completed nid) = true := by
          cases hb : edges.any (edgeBlocks completed nid)
          · exact absurd hb hcon
          · rfl
        obtain ⟨e, he, hbe⟩ := List.any_eq_true.mp h2
        have h3 := (edgeBlocks_eq_false_iff completed nid e).mpr (h e he)
        rw [h3] at hbe
        cases hbe
      rw [hall]
      rfl

/-! ### Claim C10 -/

/-- C10: when retries are exhausted and the configured fallback id names
no node of the graph, the fallback still launches with the empty
configuration — provider `"openai"`, model `"gpt-4o"`, empty system
prompt — and a fallback row is still created with `is_fallback = true`,
`fallback_for` = the original node id, and the original's
`parallel_group` and `execution_order`. -/
theorem C10_fallback_empty_config (oracle : Oracle) (nid : String)
    (cfg : NodeCfg) (pg eo : Nat) (ncs : PyDict String NodeCfg)
    (fid : String) (hfid : cfg.fallback_agent_id = some fid)
    (hne : fid ≠ "") (hmiss : fid ∉ dkeys ncs)
    (err : String) (attempts : Nat)
    (hfail : retryExecute (oracle.callPrimary nid) (cfg.max_retries.getD 2)
      = Except.error (err, attempts)) :
    ∃ orig fb,
      (_execute_agent_with_recovery oracle nid cfg pg eo ncs).1
        = [orig, fb] ∧
      orig.agent_node_id = nid ∧ orig.status = "failed" ∧
      fb.agent_node_id = fid ∧
      fb.provider = "openai" ∧ fb.model_used = "gpt-4o" ∧
      fb.input_system_prompt = some "" ∧
      fb.is_fallback = true ∧ fb.fallback_for = some nid ∧
      fb.parallel_group = pg ∧ fb.execution_order = eo ∧
      fb.agent_name = fid := by
  have hcfg : dgetD ncs fid {} = ({} : NodeCfg) := by
    unfold dgetD
    rw [dget?_eq_none_of_not_mem hmiss]
    rfl
  have hfe : ¬ (fid == "") = true := by simpa using hne
  unfold _execute_agent_with_recovery
  simp only [hfail, hfid]
  rw [if_neg hfe]
  simp only [hcfg]
  unfold _execute_fallback
  cases hcb : oracle.callFallback nid with
  | ok resp =>
    simp only [hcb]
    exact ⟨_, _, rfl, rfl, rfl, rfl, rfl, rfl, rfl, rfl, rfl, rfl, rfl,
      rfl⟩
  | error e =>
    simp only [hcb]
    exact ⟨_, _, rfl, rfl, rfl, rfl, rfl, rfl, rfl, rfl, rfl, rfl, rfl,
      rfl⟩

theorem C10_fallback_empty_config_witness :
    cfgC10.fallback_agent_id = some "ghost" ∧
    ("ghost" : String) ≠ "" ∧
    "ghost" ∉ dkeys ncsC10 ∧
    retryExecute (oracleC10.callPrimary "orig") (cfgC10.max_retries.getD 2)
      = Except.error ("boom", 3) ∧
    ∃ orig fb,
      (_execute_agent_with_recovery oracleC10 "orig" cfgC10 1 4 ncsC10).1
        = [orig, fb] ∧
      orig.agent_node_id = "orig" ∧ orig.status = "failed" ∧
      fb.agent_node_id = "ghost" ∧
      fb.provider = "openai" ∧ fb.model_used = "gpt-4o" ∧
      fb.input_system_prompt = some "" ∧
      fb.is_fallback = true ∧ fb.fallback_for = some "orig" ∧
      fb.parallel_group = 1 ∧ fb.execution_order = 4 ∧
      fb.agent_name = "ghost" :=
  ⟨rfl, by decide, by decide, rfl,
    C10_fallback_empty_config oracleC10 "orig" cfgC10 1 4 ncsC10 "ghost"
      rfl (by decide) (by decide) "boom" 3 rfl⟩

/-! ### Claim C4 -/

theorem processEntry_events (oracle : Oracle) (g : GraphData)
    (ncs : PyDict String NodeCfg) (grp : Nat)
    (acc : ExecState × List (List AgentRun × TaskResult))
    (a : AgentPlanEntry) :
    ((processEntry oracle g ncs grp acc a).1).events = acc.1.events := by
  simp only [processEntry]
  split_ifs <;> rfl

theorem processResult_events
    (ef : PyDict String (List (String × Option String)))
    (st : ExecState) (tr : List AgentRun × TaskResult) :
    (processResult ef st tr).events = st.events := by
  simp only [processResult]
  split_ifs <;> rfl

theorem runGroup_events (oracle : Oracle) (g : GraphData)
    (ncs : PyDict String NodeCfg)
    (ef : PyDict String (List (String × Option String)))
    (st : ExecState) (gr : ParallelGroup) :
    (runGroup oracle g ncs ef st gr).events = st.events := by
  unfold runGroup
  have h1 : ∀ (l : List AgentPlanEntry)
      (acc : ExecState × List (List AgentRun × TaskResult)),
      ((l.foldl (processEntry oracle g ncs gr.group) acc).1).events
        = acc.1.events := by
    intro l
    induction l with
    | nil => intro acc; rfl
    | cons x xs ih =>
      intro acc
      rw [List.foldl_cons, ih, processEntry_events]
  have h2 : ∀ (l : List (List AgentRun × TaskResult)) (st2 : ExecState),
      (l.foldl (processResult ef) st2).events = st2.events := by
    intro l
    induction l with
    | nil => intro st2; rfl
    | cons x xs ih =>
      intro st2
      rw [List.foldl_cons, ih, processResult_events]
  rw [h2, h1]

/-- C4: the executor publishes no events at all — executor.py never
references engine/events.py — so in particular no execution has an
`execution_completed` event (the claim demands exactly one) and no agent
has `agent_started`/`agent_completed`/`agent_failed` events. -/
theorem C4_no_events (oracle : Oracle) (plan : ExecutionPlan)
    (g : GraphData) :
    (execute_workflow oracle plan g).events = [] ∧
    (execute_workflow oracle plan g).events.count "execution_completed"
      = 0 := by
  have hf : ∀ (l : List ParallelGroup) (st : ExecState),
      (l.foldl (runGroup oracle g (execNodeConfigs g) (edgesFrom g)) st).events
        = st.events := by
    intro l
    induction l with
    | nil => intro st; rfl
    | cons x xs ih =>
      intro st
      rw [List.foldl_cons, ih, runGroup_events]
  have h : (execute_workflow oracle plan g).events = [] := by
    simp only [execute_workflow]
    split_ifs
    · show (plan.groups.foldl
        (runGroup oracle g (execNodeConfigs g) (edgesFrom g)) {}).events = []
      rw [hf]
    · show (plan.groups.foldl
        (runGroup oracle g (execNodeConfigs g) (edgesFrom g)) {}).events = []
      rw [hf]
  exact ⟨h, by rw [h]; rfl⟩

/-! ### Claim C2 -/

/-- C2 (actual behaviour): in `gC2` with `a` answering `"reject"`, node
`b` is condition-skipped, but its downstream `c` is neither added to
`skipped_nodes` nor skipped — it runs and completes, contradicting the
claimed propagation of condition-skips. -/
theorem C2_condition_skip_not_propagated :
    (∃ r ∈ (execute_workflow oracleC2 planC2 gC2).runs,
      r.agent_node_id = "b" ∧ r.status = "skipped" ∧
        r.error_message = some "skipped — condition not met") ∧
    (∃ r ∈ (execute_workflow oracleC2 planC2 gC2).runs,
      r.agent_node_id = "c" ∧ r.status = "completed") ∧
    "c" ∉ (execute_workflow oracleC2 planC2 gC2).skipped_nodes ∧
    ¬ (∀ r ∈ (execute_workflow oracleC2 planC2 gC2).runs,
        r.agent_node_id = "c" → r.status = "skipped") := by
  decide

/-! ### Claim C3: invariants of the executor state -/

theorem dset_ne_nil (m : PyDict κ α) (k : κ) (v : α) : dset m k v ≠ [] := by
  cases m with
  | nil => simp [dset]
  | cons p rest =>
    unfold dset
    split_ifs <;> simp

theorem recovery_has_record (oracle : Oracle) (nid : String) (cfg : NodeCfg)
    (pg eo : Nat) (ncs : PyDict String NodeCfg) :
    ∃ r ∈ (_execute_agent_with_recovery oracle nid cfg pg eo ncs).1,
      r.agent_node_id = nid := by
  unfold _execute_agent_with_recovery
  cases hr : retryExecute (oracle.callPrimary nid) (cfg.max_retries.getD 2)
    with
  | ok p =>
    obtain ⟨resp, attempts⟩ := p
    simp only [hr]
    exact ⟨_, List.mem_cons_self _ _, rfl⟩
  | error p =>
    obtain ⟨err, attempts⟩ := p
    simp only [hr]
    cases hfb : cfg.fallback_agent_id with
    | none =>
      simp only [hfb]
      exact ⟨_, List.mem_cons_self _ _, rfl⟩
    | some fid =>
      simp only [hfb]
      by_cases hfe : (fid == "") = true
      · rw [if_pos hfe]
        exact ⟨_, List.mem_cons_self _ _, rfl⟩
      · rw [if_neg hfe]
        exact ⟨_, List.mem_cons_self _ _, rfl⟩

theorem recovery_wf (oracle : Oracle) (nid : String) (cfg : NodeCfg)
    (pg eo : Nat) (ncs : PyDict String NodeCfg) :
    TaskWF (_execute_agent_with_recovery oracle nid cfg pg eo ncs) := by
  unfold TaskWF _execute_agent_with_recovery
  cases hr : retryExecute (oracle.callPrimary nid) (cfg.max_retries.getD 2)
    with
  | ok p =>
    obtain ⟨resp, attempts⟩ := p
    simp only [hr]
    refine iff_of_true ⟨_, List.mem_cons_self _ _, rfl⟩ ?_
    trivial
  | error p =>
    obtain ⟨err, attempts⟩ := p
    simp only [hr]
    cases hfb : cfg.fallback_agent_id with
    | none =>
      simp only [hfb]
      refine iff_of_false ?_ ?_
      · rintro ⟨r, hrm, hrs⟩
        rw [List.mem_singleton] at hrm
        subst hrm
        exact absurd (show ("failed" : String) = "completed" from hrs)
          (by decide)
      · intro h
        exact absurd (show ("failed" : String) = "completed" from h)
          (by decide)
    | some fid =>
      simp only [hfb]
      by_cases hfe : (fid == "") = true
      · rw [if_pos hfe]
        refine iff_of_false ?_ ?_
        · rintro ⟨r, hrm, hrs⟩
          rw [List.mem_singleton] at hrm
          subst hrm
          exact absurd (show ("failed" : String) = "completed" from hrs)
            (by decide)
        · intro h
          exact absurd (show ("failed" : String) = "completed" from h)
            (by decide)
      · rw [if_neg hfe]
        unfold _execute_fallback
        cases hcb : oracle.callFallback nid with
        | ok resp =>
          simp only [hcb]
          refine iff_of_true ⟨_, List.mem_cons_of_mem _
            (List.mem_cons_self _ _), rfl⟩ ?_
          trivial
        | error e =>
          simp only [hcb]
          refine iff_of_false ?_ ?_
          · rintro ⟨r, hrm, hrs⟩
            rcases List.mem_cons.mp hrm with rfl | hrm2
            · exact absurd (show ("failed" : String) = "completed" from hrs)
                (by decide)
            · rw [List.mem_singleton] at hrm2
              subst hrm2
              exact absurd (show ("failed" : String) = "completed" from hrs)
                (by decide)
          · intro h
            exact absurd (show ("failed" : String) = "completed" from h)
              (by decide)

theorem compInv_of_append (st2 : ExecState) {st : ExecState}
    {l : List AgentRun} (hruns : st2.runs = st.runs ++ l)
    (hl : ∀ r ∈ l, ¬ r.status = "completed")
    (hout : st2.completed_outputs = st.completed_outputs)
    (h : CompInv st) : CompInv st2 := by
  unfold CompInv at h ⊢
  rw [hruns, hout]
  constructor
  · rintro ⟨r, hrm, hrs⟩
    rcases List.mem_append.mp hrm with hm | hm
    · exact h.mp ⟨r, hm, hrs⟩
    · exact absurd hrs (hl r hm)
  · intro hne
    obtain ⟨r, hrm, hrs⟩ := h.mpr hne
    exact ⟨r, List.mem_append_left _ hrm, hrs⟩

theorem processEntry_inv (oracle : Oracle) (g : GraphData)
    (ncs : PyDict String NodeCfg) (grp : Nat)
    (acc : ExecState × List (List AgentRun × TaskResult))
    (a : AgentPlanEntry)
    (hst : CompInv acc.1) (htasks : ∀ tr ∈ acc.2, TaskWF tr) :
    CompInv (processEntry oracle g ncs grp acc a).1 ∧
    (∀ tr ∈ (processEntry oracle g ncs grp acc a).2, TaskWF tr) := by
  simp only [processEntry]
  split_ifs with h1 h2
  · refine ⟨?_, htasks⟩
    refine compInv_of_append _ rfl ?_ rfl hst
    intro r hr
    rw [List.mem_singleton] at hr
    subst hr
    intro hc
    exact absurd (show ("skipped" : String) = "completed" from hc)
      (by decide)
  · refine ⟨?_, htasks⟩
    refine compInv_of_append _ rfl ?_ rfl hst
    intro r hr
    rw [List.mem_singleton] at hr
    subst hr
    intro hc
    exact absurd (show ("skipped" : String) = "completed" from hc)
      (by decide)
  · refine ⟨hst, ?_⟩
    intro tr htr
    rcases List.mem_append.mp htr with h | h
    · exact htasks tr h
    · rw [List.mem_singleton] at h
      subst h
      exact recovery_wf oracle a.node_id (dgetD ncs a.node_id {}) grp
        acc.1.order_counter ncs

theorem processResult_runs
    (ef : PyDict String (List (String × Option String)))
    (st : ExecState) (tr : List AgentRun × TaskResult) :
    (processResult ef st tr).runs = st.runs ++ tr.1 := by
  simp only [processResult]
  split_ifs <;> rfl

theorem processResult_inv
    (ef : PyDict String (List (String × Option String)))
    (st : ExecState) (tr : List AgentRun × TaskResult)
    (hwf : TaskWF tr) (h : CompInv st) :
    CompInv (processResult ef st tr) := by
  simp only [processResult]
  split_ifs with h1 h2
  · unfold CompInv
    have hcomp : tr.2.status = "completed" := by simpa using h1
    obtain ⟨r, hrm, hrs⟩ := hwf.mpr hcomp
    constructor
    · intro _
      exact dset_ne_nil _ _ _
    · intro _
      exact ⟨r, List.mem_append_right _ hrm, hrs⟩
  · refine compInv_of_append _ rfl ?_ rfl h
    intro r hrm hrs
    have hc := hwf.mp ⟨r, hrm, hrs⟩
    exact absurd hc (by simpa using h1)
  · refine compInv_of_append _ rfl ?_ rfl h
    intro r hrm hrs
    have hc := hwf.mp ⟨r, hrm, hrs⟩
    exact absurd hc (by simpa using h1)

theorem foldl_processEntry_inv (oracle : Oracle) (g : GraphData)
    (ncs : PyDict String NodeCfg) (grp : Nat) (l : List AgentPlanEntry) :
    ∀ acc, CompInv acc.1 → (∀ tr ∈ acc.2, TaskWF tr) →
      CompInv ((l.foldl (processEntry oracle g ncs grp) acc).1) ∧
      (∀ tr ∈ (l.foldl (processEntry oracle g ncs grp) acc).2, TaskWF tr)
    := by
  induction l with
  | nil => intro acc h1 h2; exact ⟨h1, h2⟩
  | cons x xs ih =>
    intro acc h1 h2
    rw [List.foldl_cons]
    obtain ⟨h3, h4⟩ := processEntry_inv oracle g ncs grp acc x h1 h2
    exact ih _ h3 h4

theorem foldl_processResult_inv
    (ef : PyDict String (List (String × Option String)))
    (l : List (List AgentRun × TaskResult)) :
    ∀ st, CompInv st → (∀ tr ∈ l, TaskWF tr) →
      CompInv (l.foldl (processResult ef) st) := by
  induction l with
  | nil => intro st h _; exact h
  | cons x xs ih =>
    intro st h hl
    rw [List.foldl_cons]
    exact ih _ (processResult_inv ef st x (hl x (List.mem_cons_self _ _)) h)
      (fun tr htr => hl tr (List.mem_cons_of_mem _ htr))

theorem runGroup_inv (oracle : Oracle) (g : GraphData)
    (ncs : PyDict String NodeCfg)
    (ef : PyDict String (List (String × Option String)))
    (st : ExecState) (gr : ParallelGroup) (h : CompInv st) :
    CompInv (runGroup oracle g ncs ef st gr) := by
  unfold runGroup
  obtain ⟨h1, h2⟩ := foldl_processEntry_inv oracle g ncs gr.group gr.agents
    (st, []) h (by intro tr htr; cases htr)
  exact foldl_processResult_inv ef _ _ h1 h2

theorem foldl_runGroup_inv (oracle : Oracle) (g : GraphData)
    (ncs : PyDict String NodeCfg)
    (ef : PyDict String (List (String × Option String)))
    (l : List ParallelGroup) :
    ∀ st, CompInv st → CompInv (l.foldl (runGroup oracle g ncs ef) st) := by
  induction l with
  | nil => intro st h; exact h
  | cons x xs ih =>
    intro st h
    rw [List.foldl_cons]
    exact ih _ (runGroup_inv oracle g ncs ef st x h)

theorem processEntry_runs_ext (oracle : Oracle) (g : GraphData)
    (ncs : PyDict String NodeCfg) (grp : Nat)
    (acc : ExecState × List (List AgentRun × TaskResult))
    (a : AgentPlanEntry) :
    ∃ l, (processEntry oracle g ncs grp acc a).1.runs = acc.1.runs ++ l := by
  simp only [processEntry]
  split_ifs
  · exact ⟨_, rfl⟩
  · exact ⟨_, rfl⟩
  · exact ⟨[], (List.append_nil _).symm⟩

theorem processEntry_tasks_ext (oracle : Oracle) (g : GraphData)
    (ncs : PyDict String NodeCfg) (grp : Nat)
    (acc : ExecState × List (List AgentRun × TaskResult))
    (a : AgentPlanEntry) :
    ∃ l, (processEntry oracle g ncs grp acc a).2 = acc.2 ++ l := by
  simp only [processEntry]
  split_ifs
  · exact ⟨[], (List.append_nil _).symm⟩
  · exact ⟨[], (List.append_nil _).symm⟩
  · exact ⟨_, rfl⟩

theorem foldl_processEntry_ext (oracle : Oracle) (g : GraphData)
    (ncs : PyDict String NodeCfg) (grp : Nat) (l : List AgentPlanEntry) :
    ∀ acc,
      (∃ e, ((l.foldl (processEntry oracle g ncs grp) acc).1).runs
        = acc.1.runs ++ e) ∧
      (∃ e, (l.foldl (processEntry oracle g ncs grp) acc).2
        = acc.2 ++ e) := by
  induction l with
  | nil =>
    intro acc
    exact ⟨⟨[], (List.append_nil _).symm⟩, ⟨[], (List.append_nil _).symm⟩⟩
  | cons x xs ih =>
    intro acc
    rw [List.foldl_cons]
    obtain ⟨⟨e1, he1⟩, ⟨e2, he2⟩⟩ := ih (processEntry oracle g ncs grp acc x)
    obtain ⟨d1, hd1⟩ := processEntry_runs_ext oracle g ncs grp acc x
    obtain ⟨d2, hd2⟩ := processEntry_tasks_ext oracle g ncs grp acc x
    exact ⟨⟨d1 ++ e1, by rw [he1, hd1, List.append_assoc]⟩,
           ⟨d2 ++ e2, by rw [he2, hd2, List.append_assoc]⟩⟩

theorem foldl_processResult_ext
    (ef : PyDict String (List (String × Option String)))
    (l : List (List AgentRun × TaskResult)) :
    ∀ st, ∃ e, (l.foldl (processResult ef) st).runs = st.runs ++ e := by
  induction l with
  | nil =>
    intro st
    exact ⟨[], (List.append_nil _).symm⟩
  | cons x xs ih =>
    intro st
    rw [List.foldl_cons]
    obtain ⟨e, he⟩ := ih (processResult ef st x)
    exact ⟨x.1 ++ e, by rw [he, processResult_runs, List.append_assoc]⟩

theorem foldl_processResult_absorbs
    (ef : PyDict String (List (String × Option String)))
    (l : List (List AgentRun × TaskResult)) :
    ∀ st, ∀ tr ∈ l, ∀ r ∈ tr.1,
      r ∈ (l.foldl (processResult ef) st).runs := by
  induction l with
  | nil =>
    intro st tr htr
    cases htr
  | cons x xs ih =>
    intro st tr htr r hr
    rw [List.foldl_cons]
    rcases List.mem_cons.mp htr with rfl | htr2
    · obtain ⟨e, he⟩ := foldl_processResult_ext ef xs (processResult ef st tr)
      rw [he, processResult_runs]
      exact List.mem_append_left _ (List.mem_append_right _ hr)
    · exact ih _ tr htr2 r hr

theorem processEntry_covers (oracle : Oracle) (g : GraphData)
    (ncs : PyDict String NodeCfg) (grp : Nat)
    (acc : ExecState × List (List AgentRun × TaskResult))
    (a : AgentPlanEntry) :
    (∃ r ∈ (processEntry oracle g ncs grp acc a).1.runs,
      r.agent_node_id = a.node_id) ∨
    (∃ tr ∈ (processEntry oracle g ncs grp acc a).2,
      ∃ r ∈ tr.1, r.agent_node_id = a.node_id) := by
  simp only [processEntry]
  split_ifs
  · left
    exact ⟨_, List.mem_append_right _ (List.mem_cons_self _ _), rfl⟩
  · left
    exact ⟨_, List.mem_append_right _ (List.mem_cons_self _ _), rfl⟩
  · right
    exact ⟨_, List.mem_append_right _ (List.mem_cons_self _ _),
      recovery_has_record oracle a.node_id (dgetD ncs a.node_id {}) grp
        acc.1.order_counter ncs⟩

theorem foldl_processEntry_covers (oracle : Oracle) (g : GraphData)
    (ncs : PyDict String NodeCfg) (grp : Nat) (l : List AgentPlanEntry) :
    ∀ acc, ∀ a ∈ l,
      (∃ r ∈ ((l.foldl (processEntry oracle g ncs grp) acc).1).runs,
        r.agent_node_id = a.node_id) ∨
      (∃ tr ∈ (l.foldl (processEntry oracle g ncs grp) acc).2,
        ∃ r ∈ tr.1, r.agent_node_id = a.node_id) := by
  induction l with
  | nil =>
    intro acc a ha
    cases ha
  | cons x xs ih =>
    intro acc a ha
    rw [List.foldl_cons]
    rcases List.mem_cons.mp ha with rfl | ha2
    · obtain ⟨⟨e1, he1⟩, ⟨e2, he2⟩⟩ := foldl_processEntry_ext oracle g ncs
        grp xs (processEntry oracle g ncs grp acc a)
      rcases processEntry_covers oracle g ncs grp acc a with
        ⟨r, hrm, hr⟩ | ⟨tr, htr, hrr⟩
      · left
        exact ⟨r, by rw [he1]; exact List.mem_append_left _ hrm, hr⟩
      · right
        exact ⟨tr, by rw [he2]; exact List.mem_append_left _ htr, hrr⟩
    · exact ih _ a ha2

theorem runGroup_covers (oracle : Oracle) (g : GraphData)
    (ncs : PyDict String NodeCfg)
    (ef : PyDict String (List (String × Option String)))
    (st : ExecState) (gr : ParallelGroup) :
    ∀ a ∈ gr.agents, ∃ r ∈ (runGroup oracle g ncs ef st gr).runs,
      r.agent_node_id = a.node_id := by
  intro a ha
  unfold runGroup
  rcases foldl_processEntry_covers oracle g ncs gr.group gr.agents (st, [])
      a ha with ⟨r, hrm, hr⟩ | ⟨tr, htr, r, hrm, hr⟩
  · obtain ⟨e, he⟩ := foldl_processResult_ext ef _ _
    exact ⟨r, by rw [he]; exact List.mem_append_left _ hrm, hr⟩
  · exact ⟨r, foldl_processResult_absorbs ef _ _ tr htr r hrm, hr⟩

theorem runGroup_runs_ext (oracle : Oracle) (g : GraphData)
    (ncs : PyDict String NodeCfg)
    (ef : PyDict String (List (String × Option String)))
    (st : ExecState) (gr : ParallelGroup) :
    ∃ e, (runGroup oracle g ncs ef st gr).runs = st.runs ++ e := by
  unfold runGroup
  obtain ⟨⟨e1, he1⟩, -⟩ := foldl_processEntry_ext oracle g ncs gr.group
    gr.agents (st, [])
  obtain ⟨e2, he2⟩ := foldl_processResult_ext ef _ _
  exact ⟨e1 ++ e2, by rw [he2, he1, List.append_assoc]⟩

theorem foldl_runGroup_ext (oracle : Oracle) (g : GraphData)
    (ncs : PyDict String NodeCfg)
    (ef : PyDict String (List (String × Option String)))
    (l : List ParallelGroup) :
    ∀ st, ∃ e, (l.foldl (runGroup oracle g ncs ef) st).runs
      = st.runs ++ e := by
  induction l with
  | nil =>
    intro st
    exact ⟨[], (List.append_nil _).symm⟩
  | cons x xs ih =>
    intro st
    rw [List.foldl_cons]
    obtain ⟨e, he⟩ := ih (runGroup oracle g ncs ef st x)
    obtain ⟨d, hd⟩ := runGroup_runs_ext oracle g ncs ef st x
    exact ⟨d ++ e, by rw [he, hd, List.append_assoc]⟩

theorem foldl_runGroup_covers (oracle : Oracle) (g : GraphData)
    (ncs : PyDict String NodeCfg)
    (ef : PyDict String (List (String × Option String)))
    (l : List ParallelGroup) :
    ∀ st, ∀ gr ∈ l, ∀ a ∈ gr.agents,
      ∃ r ∈ (l.foldl (runGroup oracle g ncs ef) st).runs,
        r.agent_node_id = a.node_id := by
  induction l with
  | nil =>
    intro st gr hgr
    cases hgr
  | cons x xs ih =>
    intro st gr hgr a ha
    rw [List.foldl_cons]
    rcases List.mem_cons.mp hgr with rfl | hgr2
    · obtain ⟨r, hrm, hr⟩ := runGroup_covers oracle g ncs ef st gr a ha
      obtain ⟨e, he⟩ := foldl_runGroup_ext oracle g ncs ef xs
        (runGroup oracle g ncs ef st gr)
      exact ⟨r, by rw [he]; exact List.mem_append_left _ hrm, hr⟩
    · exact ih _ gr hgr2 a ha

/-- C3: at finalization the execution is `"completed"` whenever some
agent run completed (fallback completions included), even if others
failed or were skipped; it is `"failed"` with error message exactly
`"All agents failed"` when some run failed and none completed; with no
failed run (for example, everything skipped) it is `"completed"`;
`completed_at` is set; and every planned agent gets a run row — a
per-node failure never aborts the remaining groups. -/
theorem C3_finalization (oracle : Oracle) (plan : ExecutionPlan)
    (g : GraphData) :
    ((∃ r ∈ (execute_workflow oracle plan g).runs, r.status = "completed") →
      (execute_workflow oracle plan g).status = "completed") ∧
    ((∃ r ∈ (execute_workflow oracle plan g).runs, r.status = "failed") →
      (∀ r ∈ (execute_workflow oracle plan g).runs,
        r.status ≠ "completed") →
      (execute_workflow oracle plan g).status = "failed" ∧
        (execute_workflow oracle plan g).error_message
          = some "All agents failed") ∧
    ((∀ r ∈ (execute_workflow oracle plan g).runs, r.status ≠ "failed") →
      (execute_workflow oracle plan g).status = "completed" ∧
        (execute_workflow oracle plan g).error_message = none) ∧
    (execute_workflow oracle plan g).completed_at = true ∧
    (∀ a ∈ planAgents plan,
      ∃ r ∈ (execute_workflow oracle plan g).runs,
        r.agent_node_id = a.node_id) := by
  set stF := plan.groups.foldl
    (runGroup oracle g (execNodeConfigs g) (edgesFrom g)) ({} : ExecState)
    with hstF
  have hinv : CompInv stF := by
    rw [hstF]
    refine foldl_runGroup_inv oracle g (execNodeConfigs g) (edgesFrom g)
      plan.groups {} ?_
    constructor
    · rintro ⟨r, hrm, -⟩
      exact absurd hrm (List.not_mem_nil r)
    · intro h
      exact absurd rfl h
  have hcov : ∀ a ∈ planAgents plan,
      ∃ r ∈ stF.runs, r.agent_node_id = a.node_id := by
    intro a ha
    obtain ⟨gr, hgr, ha2⟩ := List.mem_flatMap.mp ha
    rw [hstF]
    exact foldl_runGroup_covers oracle g (execNodeConfigs g) (edgesFrom g)
      plan.groups {} gr hgr a ha2
  have hruns : (execute_workflow oracle plan g).runs = stF.runs := by
    rw [hstF]
    simp only [execute_workflow]
    split_ifs <;> rfl
  have hcat : (execute_workflow oracle plan g).completed_at = true := by
    simp only [execute_workflow]
    split_ifs <;> rfl
  have hpos : (!(stF.runs.filter (fun r => r.status == "failed")).isEmpty
        && stF.completed_outputs.isEmpty) = true →
      (execute_workflow oracle plan g).status = "failed" ∧
        (execute_workflow oracle plan g).error_message
          = some "All agents failed" := by
    intro hc
    rw [hstF] at hc
    simp only [execute_workflow]
    split_ifs
    exact ⟨rfl, rfl⟩
  have hneg : ¬ ((!(stF.runs.filter (fun r => r.status == "failed")).isEmpty
        && stF.completed_outputs.isEmpty) = true) →
      (execute_workflow oracle plan g).status = "completed" ∧
        (execute_workflow oracle plan g).error_message = none := by
    intro hc
    rw [hstF] at hc
    simp only [execute_workflow]
    split_ifs
    exact ⟨rfl, rfl⟩
  refine ⟨?_, ?_, ?_, hcat, ?_⟩
  · rintro ⟨r, hrm, hrs⟩
    rw [hruns] at hrm
    have hne : stF.completed_outputs ≠ [] := hinv.mp ⟨r, hrm, hrs⟩
    refine (hneg ?_).1
    intro hc
    rw [Bool.and_eq_true] at hc
    exact hne (List.isEmpty_iff.mp hc.2)
  · rintro ⟨r, hrm, hrf⟩ hnone
    rw [hruns] at hrm
    have hout : stF.completed_outputs = [] := by
      by_contra hne
      obtain ⟨r2, hr2m, hr2s⟩ := hinv.mpr hne
      exact hnone r2 (by rw [hruns]; exact hr2m) hr2s
    have hfilter : r ∈ stF.runs.filter (fun r => r.status == "failed") :=
      List.mem_filter.mpr ⟨hrm, by simpa using hrf⟩
    refine hpos ?_
    rw [Bool.and_eq_true]
    constructor
    · rw [Bool.not_eq_true']
      cases hE : (stF.runs.filter (fun r => r.status == "failed")).isEmpty
      · rfl
      · rw [List.isEmpty_iff] at hE
        rw [hE] at hfilter
        cases hfilter
    · rw [hout]
      rfl
  · intro hnofail
    have hfilter : stF.runs.filter (fun r => r.status == "failed") = [] := by
      refine List.eq_nil_iff_forall_not_mem.mpr ?_
      intro r hr
      rw [List.mem_filter] at hr
      exact hnofail r (by rw [hruns]; exact hr.1) (by simpa using hr.2)
    refine hneg ?_
    intro hc
    rw [Bool.and_eq_true] at hc
    have h1 := hc.1
    rw [hfilter] at h1
    cases h1
  · intro a ha
    rw [hruns]
    exact hcov a ha

theorem C3_finalization_witness :
    (∃ r ∈ (execute_workflow oracleC2 planC2 gC2).runs,
      r.status = "completed") ∧
    (execute_workflow oracleC2 planC2 gC2).status = "completed" ∧
    (execute_workflow oracleC2 planC2 gC2).completed_at = true := by
  have hex : ∃ r ∈ (execute_workflow oracleC2 planC2 gC2).runs,
      r.status = "completed" := by decide
  have h := C3_finalization oracleC2 planC2 gC2
  exact ⟨hex, h.1 hex, h.2.2.2.1⟩

end Nexus
